import Mathlib

/-!
# Lite Screen Recorder: frame queue, capture cadence, timestamps, lifecycle

A shallow embedding of `src/src/ScreenRecorder.cpp`, `src/include/ScreenRecorder.h`
and `src/src/main.cpp`.

* The frame queue `frame_queue` (a `std::queue<std::vector<uint8_t>>`) is a list of
  frames, oldest first; a frame is the list of its bytes.
* The critical sections of `CaptureLoop` (lines 144-151) and `EncodeLoop`
  (lines 165-175) are the pure functions `CaptureLoop_push` and `EncodeLoop_pop`.
* The three threads (the caller of `Stop`, `CaptureLoop`, `EncodeLoop`) are a
  small-step transition system `step` over the record `Recorder`.
-/

namespace ScreenRecorder

/-! ## Frames and the two critical sections -/

/-- A raw frame, `std::vector<uint8_t>`: the list of its bytes. -/
abbrev Frame := List Nat

/-- The critical section of `CaptureLoop`, lines 144-151: when the queue already
holds 60 frames or more the front is popped, then the new frame is pushed at the
back. -/
def CaptureLoop_push (frame_queue : List Frame) (frame : Frame) : List Frame :=
  (if 60 ≤ frame_queue.length then frame_queue.tail else frame_queue) ++ [frame]

/-- The critical section of `EncodeLoop` after the wait, lines 164-174: the local
`frame` starts as the empty vector; when the queue is not empty the front is moved
into it and popped. Returns the local `frame` and the queue left behind. -/
def EncodeLoop_pop (frame_queue : List Frame) : Frame × List Frame :=
  match frame_queue with
  | [] => ([], [])
  | front :: rest => (front, rest)

/-- One operation on the queue by one of its two users: the push of the producer
or the pop of the consumer. -/
inductive QueueOp where
  | push (frame : Frame)
  | pop
  deriving DecidableEq

/-- The queue together with the frames the consumer has taken out of it so far. -/
structure QueueTrace where
  frame_queue : List Frame
  popped : List Frame
  deriving DecidableEq

/-- Effect of one queue operation. A pop on the empty queue takes nothing out
(line 170 guards the pop with `!frame_queue.empty()`). -/
def QueueTrace.apply (t : QueueTrace) : QueueOp → QueueTrace
  | .push frame => { t with frame_queue := CaptureLoop_push t.frame_queue frame }
  | .pop =>
    match t.frame_queue with
    | [] => t
    | _ :: _ =>
      { frame_queue := (EncodeLoop_pop t.frame_queue).2
        popped := t.popped ++ [(EncodeLoop_pop t.frame_queue).1] }

/-- Run a sequence of queue operations. -/
def QueueTrace.run (t : QueueTrace) (ops : List QueueOp) : QueueTrace :=
  ops.foldl QueueTrace.apply t

/-- The empty queue with nothing popped yet. -/
def QueueTrace.empty : QueueTrace := { frame_queue := [], popped := [] }

/-- The frames pushed by a sequence of operations, in push order. -/
def pushedFrames : List QueueOp → List Frame
  | [] => []
  | .push frame :: ops => frame :: pushedFrames ops
  | .pop :: ops => pushedFrames ops

/-- The frames that reach the encoder: `EncodeLoop` line 177 skips a popped
frame whose byte vector is empty. -/
def encodedOf (popped : List Frame) : List Frame :=
  popped.filter (fun frame => !frame.isEmpty)

/-! ## Resolution table, `main`, session state -/

/-- The enumeration `ScreenRecorder::Resolution` of `ScreenRecorder.h`, lines 22-27. -/
inductive Resolution where
  | UHD_4K
  | FHD
  | HD
  | SD
  deriving DecidableEq

/-- The function `ScreenRecorder::GetResolution`, lines 16-31. The `default` branch of the
switch is not reachable from the four enumerators. -/
def GetResolution : Resolution → Nat × Nat
  | .UHD_4K => (3840, 2160)
  | .FHD => (1920, 1080)
  | .HD => (1280, 720)
  | .SD => (854, 480)

/-- The switch of `main`, `main.cpp` lines 35-52: the resolution selected by the
number the user typed. -/
def main_resolution (choice : Int) : Resolution :=
  if choice = 1 then .UHD_4K
  else if choice = 2 then .FHD
  else if choice = 3 then .HD
  else if choice = 4 then .SD
  else .FHD

/-- The four menu lines printed by `main`, `main.cpp` lines 26-29. -/
def main_menu : List String :=
  ["1. 4K (3840x2160)", "2. 1080p (1920x1080)", "3. 720p (1280x720)", "4. 480p (854x480)"]

/-- The label each menu line gives to its choice. -/
def main_label : Resolution → String
  | .UHD_4K => "4K"
  | .FHD => "1080p"
  | .HD => "720p"
  | .SD => "480p"

/-- A menu line rebuilt from a choice number and the dimensions that
`GetResolution` returns for the resolution `main` selects for it. -/
def menuLine (choice : Nat) : String :=
  let dims := GetResolution (main_resolution choice)
  toString choice ++ ". " ++ main_label (main_resolution choice) ++ " (" ++
    toString dims.1 ++ "x" ++ toString dims.2 ++ ")"

/-- A backend handle held in a raw pointer member: null, pointing to a live
object, or still holding the address of an object that has been freed or
released. -/
inductive Ptr where
  | null
  | live
  | dangling
  deriving DecidableEq

/-- The C++ truth value of a pointer, as in `if (fmt_ctx)`. -/
def Ptr.nonNull : Ptr → Bool
  | .null => false
  | .live => true
  | .dangling => true

/-- The teardown calls of `Stop`, lines 219-235. -/
inductive Action where
  | av_write_trailer
  | avio_closep
  | avformat_free_context
  | avcodec_free_context
  | sws_freeContext
  | surface_Release
  | device_Release
  | d3d_Release
  deriving DecidableEq

/-- Program counter of the thread running `CaptureLoop` (lines 122-158). -/
inductive CapturePC where
  | notStarted
  | entry
  | loopHead
  | grab
  | push (frame : Frame)
  | notify
  | sleep
  | exited
  deriving DecidableEq

/-- Program counter of the thread running `EncodeLoop` (lines 160-209).
`blocked` is the suspension inside `queue_cond.wait`; `wait` is the point where
the lock is held and the predicate of the wait is evaluated, on entry and after
every notification. -/
inductive EncodePC where
  | notStarted
  | loopHead
  | wait
  | blocked
  | process (frame : Frame)
  | exited
  deriving DecidableEq

/-- Program counter of the thread that calls `Stop` (lines 211-236). -/
inductive StopPC where
  | idle
  | joinCapture
  | joinEncode
  | teardown
  deriving DecidableEq

/-- The members of `ScreenRecorder` (`ScreenRecorder.h` lines 37-56), the control
state of the three threads, and three observation logs: the frames handed to
`frame_queue.push`, the frames handed to the encoder, and for every call of
`Stop` the teardown calls it made together with the state of the handle each
call received. -/
structure Recorder where
  d3d : Ptr
  device : Ptr
  surface : Ptr
  fmt_ctx : Ptr
  video_stream : Ptr
  codec_ctx : Ptr
  sws_ctx : Ptr
  frame_width : Nat
  frame_height : Nat
  start_time : Int
  frame_queue : List Frame
  is_capturing : Bool
  capture_thread : Bool
  encode_thread : Bool
  capture_pc : CapturePC
  next_frame_time : Int
  encode_pc : EncodePC
  stop_pc : StopPC
  pushed : List Frame
  encoded : List Frame
  teardown : List (List (Action × Ptr))
  deriving DecidableEq

/-- The constructor `ScreenRecorder::ScreenRecorder`, lines 6-9. -/
def Recorder.new : Recorder where
  d3d := .null
  device := .null
  surface := .null
  fmt_ctx := .null
  video_stream := .null
  codec_ctx := .null
  sws_ctx := .null
  frame_width := 0
  frame_height := 0
  start_time := 0
  frame_queue := []
  is_capturing := false
  capture_thread := false
  encode_thread := false
  capture_pc := .notStarted
  next_frame_time := 0
  encode_pc := .notStarted
  stop_pc := .idle
  pushed := []
  encoded := []
  teardown := []

/-- Outcomes of the calls into Direct3D and FFmpeg made during initialisation:
`true` when the call succeeds. -/
structure Backend where
  Direct3DCreate9 : Bool
  CreateDevice : Bool
  CreateOffscreenPlainSurface : Bool
  avformat_alloc_output_context2 : Bool
  avcodec_find_encoder : Bool
  avformat_new_stream : Bool
  avcodec_open2 : Bool
  avio_open : Bool
  avformat_write_header : Bool
  sws_getContext : Bool
  deriving DecidableEq

/-- A backend on which every call succeeds. -/
def Backend.ok : Backend :=
  ⟨true, true, true, true, true, true, true, true, true, true⟩

/-- The function `ScreenRecorder::InitDirect3D`, lines 43-62. -/
def InitDirect3D (env : Backend) (r : Recorder) : Recorder × Bool :=
  if !env.Direct3DCreate9 then (r, false)
  else
    let r₁ := { r with d3d := .live }
    if !env.CreateDevice then (r₁, false)
    else
      let r₂ := { r₁ with device := .live }
      if env.CreateOffscreenPlainSurface then ({ r₂ with surface := .live }, true)
      else (r₂, false)

/-- The function `ScreenRecorder::InitFFmpeg`, lines 64-112. The result of
`avcodec_alloc_context3` is used unchecked at line 79 and is taken to be a live
context. -/
def InitFFmpeg (env : Backend) (r : Recorder) : Recorder × Bool :=
  if !env.avformat_alloc_output_context2 then (r, false)
  else
    let r₁ := { r with fmt_ctx := .live }
    if !env.avcodec_find_encoder then (r₁, false)
    else if !env.avformat_new_stream then (r₁, false)
    else
      let r₂ := { r₁ with video_stream := .live, codec_ctx := .live }
      if !env.avcodec_open2 then (r₂, false)
      else if !env.avio_open then (r₂, false)
      else if !env.avformat_write_header then (r₂, false)
      else if env.sws_getContext then ({ r₂ with sws_ctx := .live }, true)
      else (r₂, false)

/-- The function `ScreenRecorder::Initialize`, lines 33-41; `now` is the reading of the steady
clock at line 39. `InitFFmpeg` runs only when `InitDirect3D` succeeded. -/
def Initialize (env : Backend) (resolution : Resolution) (now : Int) (r : Recorder) :
    Recorder × Bool :=
  let dims := GetResolution resolution
  let r₁ := { r with frame_width := dims.1, frame_height := dims.2, start_time := now }
  let d := InitDirect3D env r₁
  if d.2 then InitFFmpeg env d.1 else (d.1, false)

/-- The function `ScreenRecorder::Start`, lines 115-120: sets the flag and launches the two
threads, each at the first statement of its loop function. -/
def Start (r : Recorder) : Recorder :=
  { r with
    is_capturing := true
    capture_thread := true
    encode_thread := true
    capture_pc := .entry
    encode_pc := .loopHead }

/-! ## Capture cadence -/

/-- The constant of line 124: `1000 / 60` in integer arithmetic, a number of
milliseconds. -/
def target_frame_duration : Int := 1000 / 60

/-- Line 155: `next_frame_time += std::chrono::milliseconds(target_frame_duration)`
on a steady-clock time point counted in nanoseconds. -/
def CaptureLoop_next_frame_time (next_frame_time : Int) : Int :=
  next_frame_time + target_frame_duration * 1000000

/-- Lines 139-140: the vector of `frame_width * frame_height * 4` bytes filled
from the locked surface, whose byte at offset `i` is `pBits i`. -/
def CaptureLoop_frame (frame_width frame_height : Nat) (pBits : Nat → Nat) : Frame :=
  (List.range (frame_width * frame_height * 4)).map pBits

/-! ## Media timestamp -/

/-- Conversion `static_cast<int64_t>` of a floating-point value: truncation
toward zero. The signed 64-bit range is not left by the timestamp of any elapsed
time that a 64-bit nanosecond clock reports (`EncodeLoop_pts_binary64_fits_int64`),
so the result is an unbounded integer. -/
def static_cast_int64 (x : ℚ) : Int :=
  if 0 ≤ x then Int.floor x else Int.ceil x

/-- The function `av_q2d` of FFmpeg: `num / (double) den`; `rnd` is the rounding
that `double` arithmetic applies to the exact quotient, `binary64` below. -/
def av_q2d (rnd : ℚ → ℚ) (num den : Int) : ℚ :=
  rnd ((num : ℚ) / (den : ℚ))

/-- Line 191: the elapsed time between two steady-clock readings (nanosecond
counts) as a `double` number of seconds. -/
def EncodeLoop_elapsed_sec (rnd : ℚ → ℚ) (now start_time : Int) : ℚ :=
  rnd (rnd ((now - start_time : Int) : ℚ) / 1000000000)

/-- Line 192 with the time base `{1, 60}` of line 81:
`static_cast<int64_t>(elapsed_sec / av_q2d(codec_ctx->time_base))`. -/
def EncodeLoop_pts (rnd : ℚ → ℚ) (elapsed_sec : ℚ) : Int :=
  static_cast_int64 (rnd (elapsed_sec / av_q2d rnd 1 60))

/-! ## The three threads as a transition system -/

/-- One scheduling event: a step of the capture thread (with the steady-clock
reading and the outcome of the backend capture that the step may consume:
`none` when `GetFrontBufferData` or `LockRect` fails, else the bytes of the
locked surface), a step of the encode thread, or a step of the thread that
calls `Stop`. -/
inductive Event where
  | capture (now : Int) (grab : Option (Nat → Nat))
  | encode
  | stop

/-- The call `queue_cond.notify_one()`, line 152: a consumer suspended in the wait is
made to re-evaluate its predicate; with no suspended consumer the notification
is lost. -/
def notify_one (pc : EncodePC) : EncodePC :=
  match pc with
  | .blocked => .wait
  | pc => pc

/-- One step of `CaptureLoop`; `none` when the thread cannot move. -/
def stepCapture (now : Int) (grab : Option (Nat → Nat)) (r : Recorder) : Option Recorder :=
  match r.capture_pc with
  | .notStarted => none
  | .entry => some { r with next_frame_time := now, capture_pc := .loopHead }
  | .loopHead =>
    if r.is_capturing then some { r with capture_pc := .grab }
    else some { r with capture_pc := .exited }
  | .grab =>
    match grab with
    | none => some { r with capture_pc := .loopHead }
    | some pBits =>
      some { r with capture_pc := .push (CaptureLoop_frame r.frame_width r.frame_height pBits) }
  | .push frame =>
    some { r with
      frame_queue := CaptureLoop_push r.frame_queue frame
      pushed := r.pushed ++ [frame]
      capture_pc := .notify }
  | .notify => some { r with encode_pc := notify_one r.encode_pc, capture_pc := .sleep }
  | .sleep =>
    some { r with
      next_frame_time := CaptureLoop_next_frame_time r.next_frame_time
      capture_pc := .loopHead }
  | .exited => none

/-- One step of `EncodeLoop`; `none` when the thread cannot move, in particular
while it is suspended in `queue_cond.wait`. -/
def stepEncode (r : Recorder) : Option Recorder :=
  match r.encode_pc with
  | .notStarted => none
  | .loopHead =>
    if r.is_capturing || !r.frame_queue.isEmpty then some { r with encode_pc := .wait }
    else some { r with encode_pc := .exited }
  | .wait =>
    if !r.frame_queue.isEmpty || !r.is_capturing then
      some { r with
        frame_queue := (EncodeLoop_pop r.frame_queue).2
        encode_pc := .process (EncodeLoop_pop r.frame_queue).1 }
    else some { r with encode_pc := .blocked }
  | .blocked => none
  | .process frame =>
    if !frame.isEmpty then
      some { r with encoded := r.encoded ++ [frame], encode_pc := .loopHead }
    else some { r with encode_pc := .loopHead }
  | .exited => none

/-- The teardown of `Stop`, lines 219-235. Only `avcodec_free_context`, which
receives the address of the member, resets it to null; every other handle keeps
its value after the object behind it is gone. -/
def Stop_teardown (r : Recorder) : Recorder :=
  let a₁ := if r.fmt_ctx.nonNull then
    [(Action.av_write_trailer, r.fmt_ctx), (Action.avio_closep, r.fmt_ctx),
     (Action.avformat_free_context, r.fmt_ctx)] else []
  let a₂ := if r.codec_ctx.nonNull then [(Action.avcodec_free_context, r.codec_ctx)] else []
  let a₃ := if r.sws_ctx.nonNull then [(Action.sws_freeContext, r.sws_ctx)] else []
  let a₄ := if r.surface.nonNull then [(Action.surface_Release, r.surface)] else []
  let a₅ := if r.device.nonNull then [(Action.device_Release, r.device)] else []
  let a₆ := if r.d3d.nonNull then [(Action.d3d_Release, r.d3d)] else []
  { r with
    fmt_ctx := if r.fmt_ctx.nonNull then .dangling else r.fmt_ctx
    codec_ctx := .null
    sws_ctx := if r.sws_ctx.nonNull then .dangling else r.sws_ctx
    surface := if r.surface.nonNull then .dangling else r.surface
    device := if r.device.nonNull then .dangling else r.device
    d3d := if r.d3d.nonNull then .dangling else r.d3d
    teardown := r.teardown ++ [a₁ ++ a₂ ++ a₃ ++ a₄ ++ a₅ ++ a₆] }

/-- One step of a call of `Stop`; `none` while a join waits for a thread that
has not left its loop function. From `idle` the step is the entry into a new
call of `Stop`, which clears the flag (line 213). -/
def stepStop (r : Recorder) : Option Recorder :=
  match r.stop_pc with
  | .idle => some { r with is_capturing := false, stop_pc := .joinCapture }
  | .joinCapture =>
    if r.capture_thread then
      if r.capture_pc = .exited then
        some { r with capture_thread := false, stop_pc := .joinEncode }
      else none
    else some { r with stop_pc := .joinEncode }
  | .joinEncode =>
    if r.encode_thread then
      if r.encode_pc = .exited then
        some { r with encode_thread := false, stop_pc := .teardown }
      else none
    else some { r with stop_pc := .teardown }
  | .teardown => some { Stop_teardown r with stop_pc := .idle }

/-- One step of the system. -/
def step (e : Event) (r : Recorder) : Option Recorder :=
  match e with
  | .capture now grab => stepCapture now grab r
  | .encode => stepEncode r
  | .stop => stepStop r

/-- Run a schedule; an event whose thread cannot move leaves the state as it is. -/
def exec (r : Recorder) : List Event → Recorder
  | [] => r
  | e :: es => exec ((step e r).getD r) es

/-- The frame the encode thread holds between its pop and the hand-over to the
encoder. -/
def inFlight (pc : EncodePC) : List Frame :=
  match pc with
  | .process frame => if frame.isEmpty then [] else [frame]
  | _ => []

/-- The frames encoded, the frame held by the encode thread and the frames
queued, in this order, form a subsequence of the frames pushed. -/
def FifoInv (r : Recorder) : Prop :=
  (r.encoded ++ inFlight r.encode_pc ++ r.frame_queue).Sublist r.pushed

/-- The events of one pass through the body of the loop of `CaptureLoop`: the
test of the flag and the backend capture, and when the capture succeeds also the
push, the notification and the sleep. -/
def CaptureLoop_iteration (now : Int) : Option (Nat → Nat) → List Event
  | none => List.replicate 2 (.capture now none)
  | some pBits => List.replicate 5 (.capture now (some pBits))

/-- The frames produced by a sequence of backend capture outcomes. -/
def capturedFrames (frame_width frame_height : Nat) (grabs : List (Int × Option (Nat → Nat))) :
    List Frame :=
  grabs.filterMap (fun g => g.2.map (CaptureLoop_frame frame_width frame_height))

/-- Every queued frame, and the frame the capture thread is about to push, has
the size fixed by the dimensions of the session. -/
def FrameSizeInv (r : Recorder) : Prop :=
  (∀ f ∈ r.frame_queue, f.length = r.frame_width * r.frame_height * 4) ∧
  (∀ f, r.capture_pc = .push f → f.length = r.frame_width * r.frame_height * 4)

/-! ## The run of `main` and three schedules -/

/-- The session of `main` (`main.cpp` lines 23-62) once `Start` has returned:
the user typed `choice`, every backend call of `Initialize` succeeded, and the
clock read 0 at line 39. -/
def mainSession (choice : Int) : Recorder :=
  Start (Initialize Backend.ok (main_resolution choice) 0 Recorder.new).1

/-- A schedule in which the explicit `recorder.Stop()` of `main` (line 70) runs to
completion: the flag is cleared before either loop has run, the capture thread
enters and leaves at its first test of the flag, the encode thread leaves at its
first test of the loop condition, both joins return and the teardown runs. -/
def firstStopSchedule : List Event :=
  [.stop, .capture 0 none, .capture 0 none, .encode, .stop, .stop, .stop]

/-- The four steps of one further call of `Stop`, as made by the destructor
(lines 11-14) when `main` returns: clear the flag, the two joins, the teardown. -/
def secondStopSchedule : List Event :=
  [.stop, .stop, .stop, .stop]

/-- A schedule for the call of `Stop` on an idle pipeline: the encode thread
tests its loop condition and suspends in the wait on the empty queue, `Stop`
clears the flag, the capture thread enters, tests the flag and leaves, and
`Stop` joins it. -/
def deadlockSchedule : List Event :=
  [.encode, .encode, .stop, .capture 0 none, .capture 0 none, .stop]

/-- A schedule in which the flag is cleared while a capture is in flight: the
capture thread enters, passes the test of the flag and captures a frame (a black
surface), then `Stop` clears the flag. -/
def inFlightSchedule : List Event :=
  [.capture 0 none, .capture 0 none, .capture 0 (some (fun _ => 0)), .stop]

/-- Seventy distinct one-byte frames, numbered 1 to 70. -/
def seventyFrames : List Frame :=
  (List.range 70).map (fun i => [i + 1])

/-- Rounding of a rational to the nearest integer, ties to the even one. -/
def roundHalfEven (y : ℚ) : Int :=
  if y - Int.floor y < 1 / 2 then Int.floor y
  else if 1 / 2 < y - Int.floor y then Int.floor y + 1
  else if Int.floor y % 2 = 0 then Int.floor y
  else Int.floor y + 1

/-- Rounding of a positive rational to the nearest number with a 53-bit
significand, ties to even: with `e` the binary exponent of `x`, the quotient of
`x` by the unit in the last place `2 ^ (e - 52)` is rounded to an integer. -/
def binary64_pos (x : ℚ) : ℚ :=
  (roundHalfEven (x / 2 ^ (Int.log 2 x - 52)) : ℚ) * 2 ^ (Int.log 2 x - 52)

/-- Rounding to the `double` format (IEEE 754 binary64, round to nearest, ties to
even), which every arithmetic operation on `double` values applies to its exact
result. The exponent range is taken unbounded: the function agrees with the
format for magnitudes from `2 ^ (-1022)` up to the largest finite `double`, which
covers every value computed by `EncodeLoop`. -/
def binary64 (x : ℚ) : ℚ :=
  if 0 < x then binary64_pos x
  else if x < 0 then -binary64_pos (-x)
  else 0

/-- The timestamp formula in the words of the specification: the integer part of
the elapsed time divided by the time base of 1/60 second, in exact arithmetic. -/
def pts_spec (elapsed : ℚ) : Int :=
  Int.floor (elapsed / (1 / 60))

/-! ## Lemmas on the queue -/

theorem CaptureLoop_push_length_le (q : List Frame) (f : Frame) (h : q.length ≤ 60) :
    (CaptureLoop_push q f).length ≤ 60 := by
  unfold CaptureLoop_push
  split
  · simp only [List.length_append, List.length_tail, List.length_singleton]
    omega
  · simp only [List.length_append, List.length_singleton]
    omega

theorem EncodeLoop_pop_length_le (q : List Frame) :
    (EncodeLoop_pop q).2.length ≤ q.length := by
  cases q <;> simp [EncodeLoop_pop]

theorem QueueTrace.apply_length_le (t : QueueTrace) (op : QueueOp)
    (h : t.frame_queue.length ≤ 60) : (t.apply op).frame_queue.length ≤ 60 := by
  cases op with
  | push frame => exact CaptureLoop_push_length_le _ _ h
  | pop =>
    unfold QueueTrace.apply
    cases hq : t.frame_queue with
    | nil => simp [hq]
    | cons a rest =>
      simp only [EncodeLoop_pop]
      rw [hq] at h
      simp only [List.length_cons] at h
      omega

theorem QueueTrace.run_length_le (ops : List QueueOp) (t : QueueTrace)
    (h : t.frame_queue.length ≤ 60) : (t.run ops).frame_queue.length ≤ 60 := by
  induction ops generalizing t with
  | nil => exact h
  | cons op ops ih => exact ih (t.apply op) (QueueTrace.apply_length_le t op h)

theorem QueueTrace.run_append (t : QueueTrace) (ops₁ ops₂ : List QueueOp) :
    t.run (ops₁ ++ ops₂) = (t.run ops₁).run ops₂ := by
  simp [QueueTrace.run, List.foldl_append]

/-- Pushing a sequence of frames with no pop in between keeps exactly the last 60. -/
theorem foldl_CaptureLoop_push (frames : List Frame) :
    frames.foldl CaptureLoop_push [] = frames.drop (frames.length - 60) := by
  induction frames using List.reverseRecOn with
  | nil => rfl
  | append_singleton frames f ih =>
    rw [List.foldl_append, List.foldl_cons, List.foldl_nil, ih]
    unfold CaptureLoop_push
    simp only [List.length_drop, List.length_append, List.length_singleton]
    by_cases h : 60 ≤ frames.length
    · have h1 : 60 ≤ frames.length - (frames.length - 60) := by omega
      rw [if_pos h1, List.tail_drop]
      have h2 : frames.length + 1 - 60 = frames.length - 60 + 1 := by omega
      rw [h2, List.drop_append_of_le_length (by omega)]
    · have h1 : ¬ 60 ≤ frames.length - (frames.length - 60) := by omega
      rw [if_neg h1]
      have h2 : frames.length - 60 = 0 := by omega
      have h3 : frames.length + 1 - 60 = 0 := by omega
      rw [h2, h3]
      simp

/-- The frames taken out so far followed by the frames still queued form a
subsequence of the frames pushed so far; one operation preserves this. -/
theorem QueueTrace.apply_sublist (t : QueueTrace) (op : QueueOp) (pushed : List Frame)
    (h : (t.popped ++ t.frame_queue).Sublist pushed) :
    ((t.apply op).popped ++ (t.apply op).frame_queue).Sublist
      (pushed ++ pushedFrames [op]) := by
  cases op with
  | push frame =>
    simp only [QueueTrace.apply, pushedFrames, CaptureLoop_push]
    rw [← List.append_assoc]
    refine List.Sublist.append ?_ (List.Sublist.refl _)
    refine List.Sublist.trans ?_ h
    refine List.Sublist.append (List.Sublist.refl _) ?_
    split
    · exact List.tail_sublist _
    · exact List.Sublist.refl _
  | pop =>
    simp only [pushedFrames, List.append_nil]
    unfold QueueTrace.apply
    cases hq : t.frame_queue with
    | nil => simpa [hq] using h
    | cons a rest =>
      simp only [EncodeLoop_pop]
      rw [hq] at h
      simpa using h

theorem pushedFrames_append (ops₁ ops₂ : List QueueOp) :
    pushedFrames (ops₁ ++ ops₂) = pushedFrames ops₁ ++ pushedFrames ops₂ := by
  induction ops₁ with
  | nil => rfl
  | cons op ops ih =>
    cases op with
    | push frame => simp [pushedFrames, ih]
    | pop => simpa [pushedFrames] using ih

theorem QueueTrace.run_sublist (ops : List QueueOp) (t : QueueTrace) (pushed : List Frame)
    (h : (t.popped ++ t.frame_queue).Sublist pushed) :
    ((t.run ops).popped ++ (t.run ops).frame_queue).Sublist (pushed ++ pushedFrames ops) := by
  induction ops generalizing t pushed with
  | nil => simpa [QueueTrace.run, pushedFrames] using h
  | cons op ops ih =>
    have h1 := ih (t.apply op) (pushed ++ pushedFrames [op]) (QueueTrace.apply_sublist t op pushed h)
    have h2 : pushed ++ pushedFrames (op :: ops) = pushed ++ pushedFrames [op] ++ pushedFrames ops := by
      rw [List.append_assoc, ← pushedFrames_append]
      rfl
    rw [h2]
    exact h1

/-! ## Lemmas on the transition system -/

theorem exec_append (r : Recorder) (es₁ es₂ : List Event) :
    exec r (es₁ ++ es₂) = exec (exec r es₁) es₂ := by
  induction es₁ generalizing r with
  | nil => rfl
  | cons e es ih => exact ih _

theorem encodedOf_cons (f : Frame) (fs : List Frame) :
    encodedOf (f :: fs) = (if f.isEmpty then [] else [f]) ++ encodedOf fs := by
  unfold encodedOf
  cases h : f.isEmpty <;> simp [List.filter_cons, h]

theorem exec_encode_drain (q : List Frame) (r : Recorder) (hq : r.frame_queue = q)
    (h : r.encode_pc = .loopHead) :
    exec r (List.replicate (3 * q.length) .encode) =
      { r with frame_queue := [], encoded := r.encoded ++ encodedOf q } := by
  induction q generalizing r with
  | nil =>
    cases r
    simp only at hq h
    subst hq
    simp [exec, encodedOf]
  | cons f rest ih =>
    have h3 : 3 * (f :: rest).length = 3 + 3 * rest.length := by
      simp only [List.length_cons]; omega
    rw [h3, List.replicate_add, exec_append]
    have hstep : exec r (List.replicate 3 Event.encode) =
        { r with frame_queue := rest, encoded := r.encoded ++ (if f.isEmpty then [] else [f]) } := by
      cases r
      simp only at hq h
      subst hq h
      cases hf : f.isEmpty <;>
        simp [exec, step, stepEncode, EncodeLoop_pop, List.replicate, hf]
    rw [hstep, ih _ rfl (by simpa using h), encodedOf_cons]
    simp

theorem exec_encode_exited (k : Nat) (r : Recorder) (h : r.encode_pc = .exited) :
    exec r (List.replicate k .encode) = r := by
  induction k with
  | zero => rfl
  | succ k ih =>
    rw [List.replicate_succ, exec]
    have : step .encode r = none := by simp [step, stepEncode, h]
    rw [this]
    exact ih

theorem exec_encode_closed_loopHead (r : Recorder) (hc : r.is_capturing = false)
    (h : r.encode_pc = .loopHead) (k : Nat) (hk : 3 * r.frame_queue.length + 1 ≤ k) :
    exec r (List.replicate k .encode) =
      { r with frame_queue := [], encoded := r.encoded ++ encodedOf r.frame_queue,
               encode_pc := .exited } := by
  obtain ⟨j, rfl⟩ : ∃ j, k = 3 * r.frame_queue.length + (1 + j) := ⟨k - (3 * r.frame_queue.length + 1), by omega⟩
  rw [List.replicate_add, exec_append, exec_encode_drain _ r rfl h, List.replicate_add, exec_append]
  have h1 : exec { r with frame_queue := [], encoded := r.encoded ++ encodedOf r.frame_queue }
      (List.replicate 1 Event.encode) =
      { r with frame_queue := [], encoded := r.encoded ++ encodedOf r.frame_queue,
               encode_pc := .exited } := by
    simp [exec, step, stepEncode, h, hc]
  rw [h1, exec_encode_exited _ _ rfl]

theorem exec_encode_closed (r : Recorder) (hc : r.is_capturing = false)
    (h : r.encode_pc = .loopHead ∨ r.encode_pc = .wait) (k : Nat)
    (hk : 3 * r.frame_queue.length + 3 ≤ k) :
    exec r (List.replicate k .encode) =
      { r with frame_queue := [], encoded := r.encoded ++ encodedOf r.frame_queue,
               encode_pc := .exited } := by
  rcases h with h | h
  · exact exec_encode_closed_loopHead r hc h k (by omega)
  · obtain ⟨j, rfl⟩ : ∃ j, k = 2 + j := ⟨k - 2, by omega⟩
    rw [List.replicate_add, exec_append]
    cases hq : r.frame_queue with
    | nil =>
      have h2 : exec r (List.replicate 2 Event.encode) = { r with encode_pc := .loopHead } := by
        cases r
        simp only at hq h hc
        subst hq h hc
        simp [exec, step, stepEncode, EncodeLoop_pop, List.replicate]
      rw [h2, exec_encode_closed_loopHead { r with encode_pc := .loopHead } hc rfl j
        (by simp only [hq, List.length_nil]; omega)]
      simp [hq, encodedOf]
    | cons f rest =>
      have h2 : exec r (List.replicate 2 Event.encode) =
          { r with frame_queue := rest, encoded := r.encoded ++ (if f.isEmpty then [] else [f]),
                   encode_pc := .loopHead } := by
        cases r
        simp only at hq h hc
        subst hq h hc
        cases hf : f.isEmpty <;>
          simp [exec, step, stepEncode, EncodeLoop_pop, List.replicate, hf]
      rw [hq] at hk
      simp only [List.length_cons] at hk
      rw [h2, exec_encode_closed_loopHead
        { r with frame_queue := rest, encoded := r.encoded ++ (if f.isEmpty then [] else [f]),
                 encode_pc := .loopHead } hc rfl j (by simp only; omega), encodedOf_cons]
      simp

/-- While the flag is cleared, the encode thread does not leave its loop with
frames still queued. -/
theorem stepEncode_exit_drained (r r' : Recorder) (hc : r.is_capturing = false)
    (hs : stepEncode r = some r') :
    r'.is_capturing = false ∧ (r'.encode_pc = .exited → r'.frame_queue = []) := by
  unfold stepEncode at hs
  split at hs
  · simp at hs
  · split at hs
    · simp at hs; subst hs; simp [hc]
    · rename_i hcond
      simp [hc] at hcond
      simp at hs; subst hs
      simp [hc, hcond]
  · split at hs <;> (simp at hs; subst hs; simp [hc])
  · simp at hs
  · split at hs <;> (simp at hs; subst hs; simp [hc])
  · simp at hs

theorem exec_encode_exit_drained (k : Nat) (r : Recorder) (hc : r.is_capturing = false)
    (h : r.encode_pc = .exited → r.frame_queue = []) :
    (exec r (List.replicate k .encode)).encode_pc = .exited →
      (exec r (List.replicate k .encode)).frame_queue = [] := by
  induction k generalizing r with
  | zero => exact h
  | succ k ih =>
    rw [List.replicate_succ, exec]
    cases hs : step .encode r with
    | none => exact ih r hc h
    | some r' =>
      have := stepEncode_exit_drained r r' hc hs
      exact ih r' this.1 this.2

/-- Every step keeps the queue within 60 frames. -/
theorem step_queue_le (e : Event) (r r' : Recorder) (h : r.frame_queue.length ≤ 60)
    (hs : step e r = some r') : r'.frame_queue.length ≤ 60 := by
  cases e with
  | capture now grab =>
    simp only [step, stepCapture] at hs
    split at hs
    · simp at hs
    · simp at hs; subst hs; exact h
    · split at hs <;> (simp at hs; subst hs; exact h)
    · split at hs <;> (simp at hs; subst hs; exact h)
    · simp at hs; subst hs; exact CaptureLoop_push_length_le _ _ h
    · simp at hs; subst hs; exact h
    · simp at hs; subst hs; exact h
    · simp at hs
  | encode =>
    simp only [step, stepEncode] at hs
    split at hs
    · simp at hs
    · split at hs <;> (simp at hs; subst hs; exact h)
    · split at hs
      · simp at hs; subst hs
        exact le_trans (EncodeLoop_pop_length_le _) h
      · simp at hs; subst hs; exact h
    · simp at hs
    · split at hs <;> (simp at hs; subst hs; exact h)
    · simp at hs
  | stop =>
    simp only [step, stepStop] at hs
    split at hs
    · simp at hs; subst hs; exact h
    · split at hs
      · split at hs
        · simp at hs; subst hs; exact h
        · simp at hs
      · simp at hs; subst hs; exact h
    · split at hs
      · split at hs
        · simp at hs; subst hs; exact h
        · simp at hs
      · simp at hs; subst hs; exact h
    · simp at hs; subst hs; exact h

theorem exec_queue_le (es : List Event) (r : Recorder) (h : r.frame_queue.length ≤ 60) :
    (exec r es).frame_queue.length ≤ 60 := by
  induction es generalizing r with
  | nil => exact h
  | cons e es ih =>
    rw [exec]
    cases hs : step e r with
    | none => exact ih r h
    | some r' => exact ih r' (step_queue_le e r r' h hs)

theorem step_fifo (e : Event) (r r' : Recorder) (h : FifoInv r)
    (hs : step e r = some r') : FifoInv r' := by
  unfold FifoInv at *
  cases e with
  | capture now grab =>
    simp only [step, stepCapture] at hs
    split at hs
    · simp at hs
    · simp at hs; subst hs; exact h
    · split at hs <;> (simp at hs; subst hs; exact h)
    · split at hs <;> (simp at hs; subst hs; exact h)
    · simp at hs; subst hs
      simp only [CaptureLoop_push]
      rw [← List.append_assoc]
      refine List.Sublist.append (List.Sublist.trans ?_ h) (List.Sublist.refl _)
      refine List.Sublist.append (List.Sublist.refl _) ?_
      split
      · exact List.tail_sublist _
      · exact List.Sublist.refl _
    · rename_i hpc
      simp at hs; subst hs
      simp only
      have : inFlight (notify_one r.encode_pc) = inFlight r.encode_pc := by
        unfold notify_one
        split <;> simp_all [inFlight]
      rw [this]; exact h
    · simp at hs; subst hs; exact h
    · simp at hs
  | encode =>
    simp only [step, stepEncode] at hs
    split at hs
    · simp at hs
    · rename_i hpc
      rw [hpc] at h
      split at hs <;> (simp at hs; subst hs; simpa [inFlight] using h)
    · rename_i hpc
      rw [hpc] at h
      split at hs
      · simp at hs; subst hs
        simp only [inFlight, List.append_nil] at h
        cases hq : r.frame_queue with
        | nil =>
          rw [hq] at h
          simpa [EncodeLoop_pop, inFlight] using h
        | cons f rest =>
          rw [hq] at h
          simp only [EncodeLoop_pop, inFlight]
          split
          · refine List.Sublist.trans ?_ h
            simp only [List.append_nil]
            exact List.Sublist.append (List.Sublist.refl _) (List.sublist_cons_self _ _)
          · simpa using h
      · simp at hs; subst hs; simpa [inFlight] using h
    · simp at hs
    · rename_i frame hpc
      rw [hpc] at h
      split at hs
      · rename_i hf
        simp at hs; subst hs
        simp at hf
        simpa [inFlight, hf] using h
      · rename_i hf
        simp at hs; subst hs
        simp at hf
        simpa [inFlight, hf] using h
    · simp at hs
  | stop =>
    simp only [step, stepStop] at hs
    split at hs
    · simp at hs; subst hs; exact h
    · split at hs
      · split at hs
        · simp at hs; subst hs; exact h
        · simp at hs
      · simp at hs; subst hs; exact h
    · split at hs
      · split at hs
        · simp at hs; subst hs; exact h
        · simp at hs
      · simp at hs; subst hs; exact h
    · simp at hs; subst hs; exact h

theorem exec_fifo (es : List Event) (r : Recorder) (h : FifoInv r) : FifoInv (exec r es) := by
  induction es generalizing r with
  | nil => exact h
  | cons e es ih =>
    rw [exec]
    cases hs : step e r with
    | none => exact ih r h
    | some r' => exact ih r' (step_fifo e r r' h hs)

/-- With the capture thread gone, the encode thread suspended and `Stop` waiting
in its join of the encode thread, no thread can move. -/
theorem step_none_of_deadlock (r : Recorder) (hc : r.capture_pc = .exited)
    (he : r.encode_pc = .blocked) (hs : r.stop_pc = .joinEncode) (ht : r.encode_thread = true)
    (e : Event) : step e r = none := by
  cases e <;> simp [step, stepCapture, stepEncode, stepStop, hc, he, hs, ht]

theorem exec_of_deadlock (r : Recorder) (hc : r.capture_pc = .exited)
    (he : r.encode_pc = .blocked) (hs : r.stop_pc = .joinEncode) (ht : r.encode_thread = true)
    (es : List Event) : exec r es = r := by
  induction es with
  | nil => rfl
  | cons e es ih => rw [exec, step_none_of_deadlock r hc he hs ht e]; exact ih

theorem target_frame_duration_eq : target_frame_duration = 16 := by decide

theorem CaptureLoop_next_frame_time_eq (t : Int) :
    CaptureLoop_next_frame_time t = t + 16000000 := by
  simp [CaptureLoop_next_frame_time, target_frame_duration_eq]

theorem exec_capture_iteration_some (r : Recorder) (now : Int) (pBits : Nat → Nat)
    (h : r.capture_pc = .loopHead) (hc : r.is_capturing = true) :
    exec r (CaptureLoop_iteration now (some pBits)) =
      { r with
        frame_queue := CaptureLoop_push r.frame_queue
          (CaptureLoop_frame r.frame_width r.frame_height pBits)
        pushed := r.pushed ++ [CaptureLoop_frame r.frame_width r.frame_height pBits]
        encode_pc := notify_one r.encode_pc
        next_frame_time := r.next_frame_time + 16000000 } := by
  cases r
  simp only at h hc
  subst h hc
  simp [CaptureLoop_iteration, List.replicate, exec, step, stepCapture,
    CaptureLoop_next_frame_time_eq]

theorem exec_capture_iteration_none (r : Recorder) (now : Int)
    (h : r.capture_pc = .loopHead) (hc : r.is_capturing = true) :
    exec r (CaptureLoop_iteration now none) = r := by
  cases r
  simp only at h hc
  subst h hc
  simp [CaptureLoop_iteration, List.replicate, exec, step, stepCapture]

theorem notify_one_idem (pc : EncodePC) : notify_one (notify_one pc) = notify_one pc := by
  cases pc <;> rfl

/-- The state after a run of the capture thread alone over a sequence of capture
outcomes. -/
theorem exec_capture_iterations (grabs : List (Int × Option (Nat → Nat))) (r : Recorder)
    (h : r.capture_pc = .loopHead) (hc : r.is_capturing = true) :
    exec r (grabs.flatMap (fun g => CaptureLoop_iteration g.1 g.2)) =
      { r with
        frame_queue :=
          (capturedFrames r.frame_width r.frame_height grabs).foldl CaptureLoop_push r.frame_queue
        pushed := r.pushed ++ capturedFrames r.frame_width r.frame_height grabs
        encode_pc :=
          if capturedFrames r.frame_width r.frame_height grabs = [] then r.encode_pc
          else notify_one r.encode_pc
        next_frame_time := r.next_frame_time +
          16000000 * ((capturedFrames r.frame_width r.frame_height grabs).length : Int) } := by
  induction grabs generalizing r with
  | nil => simp [exec, capturedFrames]
  | cons g grabs ih =>
    obtain ⟨now, grab⟩ := g
    rw [List.flatMap_cons, exec_append]
    cases grab with
    | none =>
      rw [exec_capture_iteration_none r now h hc, ih r h hc]
      simp [capturedFrames, List.filterMap_cons]
    | some pBits =>
      rw [exec_capture_iteration_some r now pBits h hc]
      rw [ih _ (by simpa using h) (by simpa using hc)]
      simp only [capturedFrames, List.filterMap_cons, Option.map_some', List.foldl_cons,
        List.length_cons, List.append_assoc, List.singleton_append]
      have e1 : r.next_frame_time + 16000000 + 16000000 *
          ((List.filterMap (fun g : Int × Option (Nat → Nat) =>
            Option.map (CaptureLoop_frame r.frame_width r.frame_height) g.2) grabs).length : Int)
          = r.next_frame_time + 16000000 *
          (((List.filterMap (fun g : Int × Option (Nat → Nat) =>
            Option.map (CaptureLoop_frame r.frame_width r.frame_height) g.2) grabs).length + 1 : Nat) : Int) := by
        push_cast; ring
      rw [e1]
      by_cases hg : List.filterMap (fun g : Int × Option (Nat → Nat) =>
            Option.map (CaptureLoop_frame r.frame_width r.frame_height) g.2) grabs = []
      · simp [hg]
      · simp [hg, notify_one_idem]

/-! ## Lemmas on the timestamp -/

theorem static_cast_int64_mono {x y : ℚ} (h : x ≤ y) :
    static_cast_int64 x ≤ static_cast_int64 y := by
  unfold static_cast_int64
  by_cases hx : 0 ≤ x
  · have hy : 0 ≤ y := le_trans hx h
    rw [if_pos hx, if_pos hy]
    exact Int.floor_mono h
  · rw [if_neg hx]
    by_cases hy : 0 ≤ y
    · rw [if_pos hy]
      have h1 : Int.ceil x ≤ 0 := by
        rw [Int.ceil_le]
        push_neg at hx
        exact_mod_cast hx.le
      have h2 : 0 ≤ Int.floor y := Int.floor_nonneg.mpr hy
      exact le_trans h1 h2
    · rw [if_neg hy]
      exact Int.ceil_mono h

theorem av_q2d_nonneg (rnd : ℚ → ℚ) (hm : Monotone rnd) (h0 : rnd 0 = 0) :
    0 ≤ av_q2d rnd 1 60 := by
  unfold av_q2d
  rw [← h0]
  apply hm
  norm_num

theorem EncodeLoop_pts_mono (rnd : ℚ → ℚ) (hm : Monotone rnd) (h0 : rnd 0 = 0) {e₁ e₂ : ℚ}
    (h : e₁ ≤ e₂) : EncodeLoop_pts rnd e₁ ≤ EncodeLoop_pts rnd e₂ := by
  unfold EncodeLoop_pts
  apply static_cast_int64_mono
  apply hm
  exact div_le_div_of_nonneg_right h (av_q2d_nonneg rnd hm h0)

theorem EncodeLoop_elapsed_sec_mono (rnd : ℚ → ℚ) (hm : Monotone rnd) (start_time : Int)
    {now₁ now₂ : Int} (h : now₁ ≤ now₂) :
    EncodeLoop_elapsed_sec rnd now₁ start_time ≤ EncodeLoop_elapsed_sec rnd now₂ start_time := by
  unfold EncodeLoop_elapsed_sec
  apply hm
  apply div_le_div_of_nonneg_right _ (by norm_num)
  apply hm
  exact_mod_cast Int.sub_le_sub_right h start_time

/-! ## Lemmas on initialisation -/

theorem InitDirect3D_fields (env : Backend) (r : Recorder) :
    (InitDirect3D env r).1.frame_width = r.frame_width ∧
    (InitDirect3D env r).1.frame_height = r.frame_height ∧
    (InitDirect3D env r).1.frame_queue = r.frame_queue ∧
    (InitDirect3D env r).1.pushed = r.pushed ∧
    (InitDirect3D env r).1.encoded = r.encoded := by
  unfold InitDirect3D
  split
  · simp
  · split
    · simp
    · split <;> simp

theorem InitFFmpeg_fields (env : Backend) (r : Recorder) :
    (InitFFmpeg env r).1.frame_width = r.frame_width ∧
    (InitFFmpeg env r).1.frame_height = r.frame_height ∧
    (InitFFmpeg env r).1.frame_queue = r.frame_queue ∧
    (InitFFmpeg env r).1.pushed = r.pushed ∧
    (InitFFmpeg env r).1.encoded = r.encoded := by
  unfold InitFFmpeg
  repeat (first | (split <;> simp; done) | split | simp)

theorem Initialize_fields (env : Backend) (resolution : Resolution) (now : Int) (r : Recorder) :
    (Initialize env resolution now r).1.frame_width = (GetResolution resolution).1 ∧
    (Initialize env resolution now r).1.frame_height = (GetResolution resolution).2 ∧
    (Initialize env resolution now r).1.frame_queue = r.frame_queue ∧
    (Initialize env resolution now r).1.pushed = r.pushed ∧
    (Initialize env resolution now r).1.encoded = r.encoded := by
  unfold Initialize
  simp only
  split
  · have h1 := InitFFmpeg_fields env (InitDirect3D env
      { r with frame_width := (GetResolution resolution).1,
               frame_height := (GetResolution resolution).2, start_time := now }).1
    have h2 := InitDirect3D_fields env
      { r with frame_width := (GetResolution resolution).1,
               frame_height := (GetResolution resolution).2, start_time := now }
    simp only at h2
    obtain ⟨a1, a2, a3, a4, a5⟩ := h1
    obtain ⟨b1, b2, b3, b4, b5⟩ := h2
    exact ⟨a1.trans b1, a2.trans b2, a3.trans b3, a4.trans b4, a5.trans b5⟩
  · exact InitDirect3D_fields env
      { r with frame_width := (GetResolution resolution).1,
               frame_height := (GetResolution resolution).2, start_time := now }

theorem GetResolution_pos (resolution : Resolution) :
    0 < (GetResolution resolution).1 * (GetResolution resolution).2 * 4 := by
  cases resolution <;> simp [GetResolution]

theorem CaptureLoop_frame_length (w h : Nat) (pBits : Nat → Nat) :
    (CaptureLoop_frame w h pBits).length = w * h * 4 := by
  simp [CaptureLoop_frame]

theorem CaptureLoop_frame_isEmpty (w h : Nat) (pBits : Nat → Nat) (hp : 0 < w * h * 4) :
    (CaptureLoop_frame w h pBits).isEmpty = false := by
  have := CaptureLoop_frame_length w h pBits
  cases hf : CaptureLoop_frame w h pBits with
  | nil => rw [hf] at this; simp only [List.length_nil] at this; omega
  | cons a l => rfl

theorem encodedOf_capturedFrames (w h : Nat) (grabs : List (Int × Option (Nat → Nat)))
    (hp : 0 < w * h * 4) : encodedOf (capturedFrames w h grabs) = capturedFrames w h grabs := by
  unfold encodedOf
  rw [List.filter_eq_self]
  intro f hf
  simp only [capturedFrames, List.mem_filterMap, Option.map_eq_some'] at hf
  obtain ⟨g, _, b, _, rfl⟩ := hf
  simp [CaptureLoop_frame_isEmpty w h b hp]

theorem encodedOf_eq_self (q : List Frame) (h : ∀ f ∈ q, f ≠ []) : encodedOf q = q := by
  unfold encodedOf
  rw [List.filter_eq_self]
  intro f hf
  have := h f hf
  cases f with
  | nil => exact absurd rfl this
  | cons a l => rfl

theorem encodedOf_sublist (q : List Frame) : (encodedOf q).Sublist q :=
  List.filter_sublist _

theorem step_frameSize (e : Event) (r r' : Recorder) (h : FrameSizeInv r)
    (hs : step e r = some r') :
    FrameSizeInv r' ∧ r'.frame_width = r.frame_width ∧ r'.frame_height = r.frame_height := by
  unfold FrameSizeInv at *
  obtain ⟨hq, hp⟩ := h
  cases e with
  | capture now grab =>
    simp only [step, stepCapture] at hs
    split at hs
    · simp at hs
    · simp at hs; subst hs; simp_all
    · split at hs <;> (simp at hs; subst hs; simp_all)
    · split at hs
      · simp at hs; subst hs; simp_all
      · simp at hs; subst hs
        simp [CaptureLoop_frame_length]
        exact hq
    · rename_i frame hpc
      simp at hs; subst hs
      refine ⟨⟨?_, by simp⟩, rfl, rfl⟩
      intro f hf
      simp only [CaptureLoop_push, List.mem_append, List.mem_singleton] at hf
      rcases hf with hf | hf
      · split at hf
        · exact hq f (List.mem_of_mem_tail hf)
        · exact hq f hf
      · subst hf; exact hp f hpc
    · simp at hs; subst hs; simp_all
    · simp at hs; subst hs; simp_all
    · simp at hs
  | encode =>
    simp only [step, stepEncode] at hs
    split at hs
    · simp at hs
    · split at hs <;> (simp at hs; subst hs; exact ⟨⟨hq, hp⟩, rfl, rfl⟩)
    · split at hs
      · simp at hs; subst hs
        refine ⟨⟨?_, hp⟩, rfl, rfl⟩
        intro f hf
        cases hq' : r.frame_queue with
        | nil => simp [hq', EncodeLoop_pop] at hf
        | cons a rest =>
          simp only [hq', EncodeLoop_pop] at hf
          exact hq f (by rw [hq']; exact List.mem_cons_of_mem _ hf)
      · simp at hs; subst hs; exact ⟨⟨hq, hp⟩, rfl, rfl⟩
    · simp at hs
    · split at hs <;> (simp at hs; subst hs; exact ⟨⟨hq, hp⟩, rfl, rfl⟩)
    · simp at hs
  | stop =>
    simp only [step, stepStop] at hs
    split at hs
    · simp at hs; subst hs; exact ⟨⟨hq, hp⟩, rfl, rfl⟩
    · split at hs
      · split at hs
        · simp at hs; subst hs; exact ⟨⟨hq, hp⟩, rfl, rfl⟩
        · simp at hs
      · simp at hs; subst hs; exact ⟨⟨hq, hp⟩, rfl, rfl⟩
    · split at hs
      · split at hs
        · simp at hs; subst hs; exact ⟨⟨hq, hp⟩, rfl, rfl⟩
        · simp at hs
      · simp at hs; subst hs; exact ⟨⟨hq, hp⟩, rfl, rfl⟩
    · simp at hs; subst hs; exact ⟨⟨hq, hp⟩, rfl, rfl⟩

theorem exec_frameSize (es : List Event) (r : Recorder) (h : FrameSizeInv r) :
    FrameSizeInv (exec r es) ∧ (exec r es).frame_width = r.frame_width ∧
      (exec r es).frame_height = r.frame_height := by
  induction es generalizing r with
  | nil => exact ⟨h, rfl, rfl⟩
  | cons e es ih =>
    rw [exec]
    cases hs : step e r with
    | none => exact ih r h
    | some r' =>
      obtain ⟨h1, h2, h3⟩ := step_frameSize e r r' h hs
      obtain ⟨i1, i2, i3⟩ := ih r' h1
      exact ⟨i1, i2.trans h2, i3.trans h3⟩

/-- In a session started after `Initialize`, no queued frame is the empty vector. -/
theorem queued_frames_nonempty (env : Backend) (resolution : Resolution) (now : Int)
    (es : List Event) :
    ∀ f ∈ (exec (Start (Initialize env resolution now Recorder.new).1) es).frame_queue, f ≠ [] := by
  obtain ⟨a1, a2, a3, _, _⟩ := Initialize_fields env resolution now Recorder.new
  have hinv : FrameSizeInv (Start (Initialize env resolution now Recorder.new).1) := by
    constructor
    · intro f hf
      have hq0 : (Start (Initialize env resolution now Recorder.new).1).frame_queue = [] := by
        show (Initialize env resolution now Recorder.new).1.frame_queue = []
        rw [a3]; rfl
      rw [hq0] at hf
      exact absurd hf (List.not_mem_nil f)
    · intro f hf
      simp [Start] at hf
  obtain ⟨⟨hq, _⟩, hw, hh⟩ := exec_frameSize es _ hinv
  intro f hf hnil
  have := hq f hf
  rw [hw, hh] at this
  simp only [Start, a1, a2] at this
  have hp := GetResolution_pos resolution
  rw [hnil] at this
  simp only [List.length_nil] at this
  omega

theorem QueueTrace.run_pushes (frames : List Frame) (t : QueueTrace) :
    t.run (frames.map QueueOp.push) =
      { t with frame_queue := frames.foldl CaptureLoop_push t.frame_queue } := by
  induction frames generalizing t with
  | nil => rfl
  | cons f fs ih =>
    simp only [List.map_cons, QueueTrace.run, List.foldl_cons]
    exact ih (t.apply (.push f))

theorem QueueTrace.run_pops (n : Nat) (q popped : List Frame) (h : q.length ≤ n) :
    QueueTrace.run ⟨q, popped⟩ (List.replicate n QueueOp.pop) = ⟨[], popped ++ q⟩ := by
  induction n generalizing q popped with
  | zero =>
    have : q = [] := List.length_eq_zero.mp (by omega)
    subst this
    simp [QueueTrace.run]
  | succ n ih =>
    cases q with
    | nil =>
      simp only [List.replicate_succ, QueueTrace.run, List.foldl_cons, QueueTrace.apply]
      exact ih [] popped (by simp)
    | cons f rest =>
      simp only [List.replicate_succ, QueueTrace.run, List.foldl_cons, QueueTrace.apply,
        EncodeLoop_pop]
      have := ih rest (popped ++ [f]) (by simp at h; omega)
      simpa [QueueTrace.run] using this

theorem FifoInv_start (env : Backend) (resolution : Resolution) (now : Int) :
    FifoInv (Start (Initialize env resolution now Recorder.new).1) := by
  obtain ⟨_, _, a3, a4, a5⟩ := Initialize_fields env resolution now Recorder.new
  unfold FifoInv
  show ((Initialize env resolution now Recorder.new).1.encoded ++ inFlight EncodePC.loopHead ++
    (Initialize env resolution now Recorder.new).1.frame_queue).Sublist
    (Initialize env resolution now Recorder.new).1.pushed
  rw [a3, a4, a5]
  simp [Recorder.new, inFlight]

theorem queue_start (env : Backend) (resolution : Resolution) (now : Int) :
    (Start (Initialize env resolution now Recorder.new).1).frame_queue = [] := by
  obtain ⟨_, _, a3, _, _⟩ := Initialize_fields env resolution now Recorder.new
  show (Initialize env resolution now Recorder.new).1.frame_queue = []
  rw [a3]; rfl

/-! ## The claims -/

/-- C1, capacity invariant. From a queue of at most 60 frames the push of
`CaptureLoop` (evict the front at 60 or more, then append) yields a queue of at
most 60 frames; from the empty queue every sequence of pushes and pops leaves at
most 60 frames; and in every interleaving of the three threads of a session
started after `Initialize` the queue holds at most 60 frames at every step. -/
theorem capacity_invariant (q : List Frame) (frame : Frame) (h : q.length ≤ 60) :
    (CaptureLoop_push q frame).length ≤ 60 ∧
    (∀ ops : List QueueOp, (QueueTrace.empty.run ops).frame_queue.length ≤ 60) ∧
    (∀ (env : Backend) (resolution : Resolution) (now : Int) (es : List Event),
      (exec (Start (Initialize env resolution now Recorder.new).1) es).frame_queue.length ≤ 60) := by
  refine ⟨CaptureLoop_push_length_le q frame h, ?_, ?_⟩
  · intro ops
    exact QueueTrace.run_length_le ops QueueTrace.empty (by simp [QueueTrace.empty])
  · intro env resolution now es
    exact exec_queue_le es _ (by rw [queue_start]; simp)

theorem capacity_invariant_witness :
    (List.replicate 60 [7]).length ≤ 60 ∧
      (CaptureLoop_push (List.replicate 60 [7]) [8]).length ≤ 60 :=
  ⟨by decide, (capacity_invariant (List.replicate 60 [7]) [8] (by decide)).1⟩

/-- C2, drop-oldest. When 60 or more frames are pushed in order into the empty
queue with no pop in between, the queue holds exactly the last 60 of them, oldest
first; sixty pops then return exactly these frames in this order; and an encode
thread that runs afterwards on this queue hands exactly these frames, those with
an empty byte vector excepted, to the encoder and empties the queue. -/
theorem drop_oldest (frames : List Frame) (h : 60 ≤ frames.length) :
    frames.foldl CaptureLoop_push [] = frames.drop (frames.length - 60) ∧
    (frames.foldl CaptureLoop_push []).length = 60 ∧
    QueueTrace.empty.run (frames.map QueueOp.push ++ List.replicate 60 QueueOp.pop) =
      ⟨[], frames.drop (frames.length - 60)⟩ ∧
    (∀ r : Recorder, r.encode_pc = .loopHead →
      r.frame_queue = frames.foldl CaptureLoop_push [] →
      (exec r (List.replicate 180 .encode)).encoded =
          r.encoded ++ encodedOf (frames.drop (frames.length - 60)) ∧
        (exec r (List.replicate 180 .encode)).frame_queue = []) := by
  have hlen : (frames.foldl CaptureLoop_push []).length = 60 := by
    rw [foldl_CaptureLoop_push, List.length_drop]; omega
  refine ⟨foldl_CaptureLoop_push frames, hlen, ?_, ?_⟩
  · rw [QueueTrace.run_append, QueueTrace.run_pushes]
    have := QueueTrace.run_pops 60 (frames.foldl CaptureLoop_push []) [] (by omega)
    simp only [QueueTrace.empty]
    rw [this, foldl_CaptureLoop_push]
    simp
  · intro r hpc hq
    have h180 : 180 = 3 * (frames.foldl CaptureLoop_push []).length := by omega
    rw [h180, exec_encode_drain _ r hq hpc, foldl_CaptureLoop_push]
    exact ⟨rfl, rfl⟩

theorem drop_oldest_witness :
    60 ≤ seventyFrames.length ∧
      seventyFrames.foldl CaptureLoop_push [] = (List.range 60).map (fun i => [i + 11]) :=
  ⟨by decide, (drop_oldest seventyFrames (by decide)).1.trans (by decide)⟩

/-- C3, FIFO order. For every sequence of pushes and pops on the empty queue the
frames returned by the pops, and so the frames handed to the encoder, are a
subsequence of the frames pushed, in push order; when the pushed frames are
pairwise distinct no frame is returned twice. In every interleaving of the three
threads of a session started after `Initialize` the frames handed to the encoder
are a subsequence of the frames pushed. -/
theorem fifo_order (ops : List QueueOp) :
    (QueueTrace.empty.run ops).popped.Sublist (pushedFrames ops) ∧
    (encodedOf (QueueTrace.empty.run ops).popped).Sublist (pushedFrames ops) ∧
    ((pushedFrames ops).Nodup → (QueueTrace.empty.run ops).popped.Nodup) ∧
    (∀ (env : Backend) (resolution : Resolution) (now : Int) (es : List Event),
      (exec (Start (Initialize env resolution now Recorder.new).1) es).encoded.Sublist
        (exec (Start (Initialize env resolution now Recorder.new).1) es).pushed) := by
  have h0 := QueueTrace.run_sublist ops QueueTrace.empty [] (by simp [QueueTrace.empty])
  simp only [List.nil_append] at h0
  have h1 : (QueueTrace.empty.run ops).popped.Sublist (pushedFrames ops) :=
    List.Sublist.trans (List.sublist_append_left _ _) h0
  refine ⟨h1, List.Sublist.trans (encodedOf_sublist _) h1, fun hn => hn.sublist h1, ?_⟩
  intro env resolution now es
  have := exec_fifo es _ (FifoInv_start env resolution now)
  unfold FifoInv at this
  refine List.Sublist.trans ?_ this
  rw [List.append_assoc]
  exact List.sublist_append_left _ _

/-- C9, resolution lookup. `GetResolution` maps the four choices to 3840x2160,
1920x1080, 1280x720 and 854x480; `Initialize` stores the pair of the requested
resolution in `frame_width` and `frame_height` whatever the backends answer; the
switch of `main` maps the numbers 1 to 4 to the four choices in this order; and
each menu line of `main` announces the dimensions of the resolution selected
for its number. -/
theorem resolution_lookup :
    GetResolution .UHD_4K = (3840, 2160) ∧ GetResolution .FHD = (1920, 1080) ∧
    GetResolution .HD = (1280, 720) ∧ GetResolution .SD = (854, 480) ∧
    (∀ (env : Backend) (resolution : Resolution) (now : Int) (r : Recorder),
      ((Initialize env resolution now r).1.frame_width,
        (Initialize env resolution now r).1.frame_height) = GetResolution resolution) ∧
    (main_resolution 1 = .UHD_4K ∧ main_resolution 2 = .FHD ∧ main_resolution 3 = .HD ∧
      main_resolution 4 = .SD) ∧
    [menuLine 1, menuLine 2, menuLine 3, menuLine 4] = main_menu := by
  refine ⟨rfl, rfl, rfl, rfl, ?_, ⟨by decide, by decide, by decide, by decide⟩, by decide⟩
  intro env resolution now r
  obtain ⟨a1, a2, _⟩ := Initialize_fields env resolution now r
  rw [a1, a2]

/-- C8, capture cadence. The constant of line 124 is 16 (milliseconds), so each
frame-producing pass advances the deadline by 16 000 000 ns: after the capture
thread has entered at clock reading `t0` and run through any sequence of capture
outcomes, its deadline is `t0` plus 16 ms per frame produced, whatever the clock
readings and whatever the outcomes in between. Sixty frames move the deadline
by 960 ms, not by the full second that sixty ticks of 1/60 s make up. -/
theorem capture_tick_is_16ms :
    target_frame_duration = 16 ∧
    (∀ t : Int, CaptureLoop_next_frame_time t = t + 16000000) ∧
    (∀ (r : Recorder) (t0 : Int) (grabs : List (Int × Option (Nat → Nat))),
      (exec (Start r)
          (.capture t0 none :: grabs.flatMap (fun g => CaptureLoop_iteration g.1 g.2))).next_frame_time =
        t0 + 16000000 * ((capturedFrames r.frame_width r.frame_height grabs).length : Int)) ∧
    (∀ t0 : Int, CaptureLoop_next_frame_time^[60] t0 = t0 + 960000000 ∧
      CaptureLoop_next_frame_time^[60] t0 ≠ t0 + 1000000000) := by
  refine ⟨target_frame_duration_eq, CaptureLoop_next_frame_time_eq, ?_, ?_⟩
  · intro r t0 grabs
    have h1 : exec (Start r) (.capture t0 none ::
        grabs.flatMap (fun g => CaptureLoop_iteration g.1 g.2)) =
        exec { Start r with next_frame_time := t0, capture_pc := .loopHead }
          (grabs.flatMap (fun g => CaptureLoop_iteration g.1 g.2)) := by
      rw [exec]
      simp [step, stepCapture, Start]
    rw [h1, exec_capture_iterations grabs _ rfl rfl]
    simp [Start]
  · intro t0
    have : CaptureLoop_next_frame_time = fun t => t + 16000000 :=
      funext CaptureLoop_next_frame_time_eq
    rw [this]
    have hk : ∀ k : Nat, (fun t : Int => t + 16000000)^[k] t0 = t0 + 16000000 * (k : Int) := by
      intro k
      induction k with
      | zero => simp
      | succ k ih =>
        rw [Function.iterate_succ_apply', ih]
        push_cast; ring
    rw [hk 60]
    constructor
    · norm_num
    · intro hcon
      have : (16000000 : Int) * ((60 : Nat) : Int) = 1000000000 := by linarith
      norm_num at this

/-- C5, second call of `Stop`. In the run of `main` the explicit `Stop` completes
with every handle torn down once; the call of `Stop` made next by the destructor
finds `fmt_ctx`, `sws_ctx`, `surface`, `device` and `d3d` still non-null, because
only `codec_ctx` was reset, and repeats the trailer write, the close and free of
the container, the free of the converter and the three releases on handles whose
objects are gone. In general, after a teardown of a live container a second
teardown writes the trailer and frees the container again through the stale
handle. -/
theorem second_Stop_repeats_teardown :
    (exec (mainSession 2) firstStopSchedule).stop_pc = .idle ∧
    (exec (mainSession 2) firstStopSchedule).teardown =
      [[(.av_write_trailer, .live), (.avio_closep, .live), (.avformat_free_context, .live),
        (.avcodec_free_context, .live), (.sws_freeContext, .live), (.surface_Release, .live),
        (.device_Release, .live), (.d3d_Release, .live)]] ∧
    (exec (mainSession 2) firstStopSchedule).fmt_ctx = .dangling ∧
    (exec (mainSession 2) firstStopSchedule).codec_ctx = .null ∧
    (exec (exec (mainSession 2) firstStopSchedule) secondStopSchedule).stop_pc = .idle ∧
    (exec (exec (mainSession 2) firstStopSchedule) secondStopSchedule).teardown =
      (exec (mainSession 2) firstStopSchedule).teardown ++
      [[(.av_write_trailer, .dangling), (.avio_closep, .dangling),
        (.avformat_free_context, .dangling), (.sws_freeContext, .dangling),
        (.surface_Release, .dangling), (.device_Release, .dangling),
        (.d3d_Release, .dangling)]] ∧
    (∀ r : Recorder, r.fmt_ctx = .live →
      (Stop_teardown r).fmt_ctx = .dangling ∧
      ∃ first second : List (Action × Ptr),
        (Stop_teardown (Stop_teardown r)).teardown = r.teardown ++ [first, second] ∧
        (Action.av_write_trailer, Ptr.dangling) ∈ second ∧
        (Action.avformat_free_context, Ptr.dangling) ∈ second) := by
  refine ⟨by decide, by decide, by decide, by decide, by decide, by decide, ?_⟩
  intro r hr
  refine ⟨by simp [Stop_teardown, hr, Ptr.nonNull], ?_⟩
  refine ⟨_, _, by simp only [Stop_teardown, List.append_assoc, List.singleton_append]; rfl, ?_, ?_⟩ <;>
    simp [hr, Ptr.nonNull]

/-- C6, `Stop` and a suspended consumer. `Stop` clears the flag and never
notifies `queue_cond`. In the run of `main` under `deadlockSchedule` the encode
thread is suspended in its wait on the empty queue when the flag is cleared; the
capture thread then leaves at its loop test without a notification, and the
state reached has the flag cleared, the capture thread gone, the queue empty, the
encode thread still suspended and `Stop` in its join of the encode thread: no
thread can take a step, and no schedule changes the state, so no teardown is ever
made. The same holds from every state in which the encode thread is suspended
and the capture thread is at its sleep or at its loop test when `Stop` begins. -/
theorem Stop_leaves_consumer_suspended :
    (exec (mainSession 2) deadlockSchedule).is_capturing = false ∧
    (exec (mainSession 2) deadlockSchedule).capture_pc = .exited ∧
    (exec (mainSession 2) deadlockSchedule).frame_queue = [] ∧
    (exec (mainSession 2) deadlockSchedule).encode_pc = .blocked ∧
    (exec (mainSession 2) deadlockSchedule).stop_pc = .joinEncode ∧
    (exec (mainSession 2) deadlockSchedule).teardown = [] ∧
    (∀ e : Event, step e (exec (mainSession 2) deadlockSchedule) = none) ∧
    (∀ es : List Event, exec (exec (mainSession 2) deadlockSchedule) es =
      exec (mainSession 2) deadlockSchedule) ∧
    (∀ (r : Recorder) (now : Int) (grab : Option (Nat → Nat)),
      r.encode_pc = .blocked → (r.capture_pc = .sleep ∨ r.capture_pc = .loopHead) →
      r.stop_pc = .idle → r.capture_thread = true → r.encode_thread = true →
      (exec r [.stop, .capture now grab, .capture now grab, .stop]).encode_pc = .blocked ∧
      (exec r [.stop, .capture now grab, .capture now grab, .stop]).capture_pc = .exited ∧
      (exec r [.stop, .capture now grab, .capture now grab, .stop]).frame_queue = r.frame_queue ∧
      ∀ es : List Event,
        exec (exec r [.stop, .capture now grab, .capture now grab, .stop]) es =
          exec r [.stop, .capture now grab, .capture now grab, .stop]) := by
  have hc : (exec (mainSession 2) deadlockSchedule).capture_pc = .exited := by decide
  have he : (exec (mainSession 2) deadlockSchedule).encode_pc = .blocked := by decide
  have hs : (exec (mainSession 2) deadlockSchedule).stop_pc = .joinEncode := by decide
  have ht : (exec (mainSession 2) deadlockSchedule).encode_thread = true := by decide
  refine ⟨by decide, hc, by decide, he, hs, by decide,
    step_none_of_deadlock _ hc he hs ht, exec_of_deadlock _ hc he hs ht, ?_⟩
  intro r now grab hb hcap hidle hct het
  have key : (exec r [.stop, .capture now grab, .capture now grab, .stop]).encode_pc = .blocked ∧
      (exec r [.stop, .capture now grab, .capture now grab, .stop]).capture_pc = .exited ∧
      (exec r [.stop, .capture now grab, .capture now grab, .stop]).frame_queue = r.frame_queue ∧
      (exec r [.stop, .capture now grab, .capture now grab, .stop]).stop_pc = .joinEncode ∧
      (exec r [.stop, .capture now grab, .capture now grab, .stop]).encode_thread = true := by
    cases r
    simp only at hb hcap hidle hct het
    subst hb hidle hct het
    rcases hcap with hcap | hcap <;> subst hcap <;>
      simp [exec, step, stepStop, stepCapture]
  obtain ⟨k1, k2, k3, k4, k5⟩ := key
  exact ⟨k1, k2, k3, exec_of_deadlock _ k2 k1 k4 k5⟩

/-- C10, counterexample. In the run of `main` under `inFlightSchedule` the flag
is cleared and the queue is empty while a captured frame is in flight; the next
step of the capture thread pushes that frame, so the queue changes, and the
encode thread then hands the frame to the encoder. -/
theorem push_after_flag_cleared :
    (exec (mainSession 2) inFlightSchedule).is_capturing = false ∧
    (exec (mainSession 2) inFlightSchedule).frame_queue = [] ∧
    (exec (mainSession 2) (inFlightSchedule ++ [.capture 0 none])).frame_queue =
      [CaptureLoop_frame 1920 1080 (fun _ => 0)] ∧
    (exec (mainSession 2) (inFlightSchedule ++ [.capture 0 none])).frame_queue ≠
      (exec (mainSession 2) inFlightSchedule).frame_queue ∧
    (exec (mainSession 2)
        (inFlightSchedule ++ [.capture 0 none, .encode, .encode, .encode])).encoded =
      [CaptureLoop_frame 1920 1080 (fun _ => 0)] := by
  have hf : (CaptureLoop_frame 1920 1080 (fun _ => 0)).isEmpty = false :=
    CaptureLoop_frame_isEmpty 1920 1080 _ (by norm_num)
  have hs : exec (mainSession 2) inFlightSchedule =
      { mainSession 2 with
        is_capturing := false
        stop_pc := .joinCapture
        capture_pc := .push (CaptureLoop_frame 1920 1080 (fun _ => 0)) } := by
    simp [mainSession, inFlightSchedule, Start, Initialize, InitDirect3D, InitFFmpeg,
      Backend.ok, main_resolution, GetResolution, Recorder.new, exec, step, stepCapture,
      stepStop]
  have hq : (mainSession 2).frame_queue = [] := queue_start _ _ _
  have he : (mainSession 2).encoded = [] := by
    simp [mainSession, Start, Initialize, InitDirect3D, InitFFmpeg, Backend.ok, Recorder.new]
  have hp : (mainSession 2).encode_pc = .loopHead := rfl
  refine ⟨by rw [hs], by rw [hs]; exact hq, ?_, ?_, ?_⟩
  · rw [exec_append, hs]
    simp [exec, step, stepCapture, CaptureLoop_push, hq]
  · rw [exec_append, hs]
    simp [exec, step, stepCapture, CaptureLoop_push, hq]
  · rw [exec_append, hs]
    simp [exec, step, stepCapture, stepEncode, CaptureLoop_push, EncodeLoop_pop, hq, he, hp, hf]

theorem CaptureLoop_push_getLast (q : List Frame) (frame : Frame) :
    (CaptureLoop_push q frame).getLast? = some frame := by
  simp [CaptureLoop_push]

theorem CaptureLoop_push_length_le_succ (q : List Frame) (frame : Frame) :
    (CaptureLoop_push q frame).length ≤ q.length + 1 := by
  unfold CaptureLoop_push
  split
  · simp only [List.length_append, List.length_tail, List.length_singleton]; omega
  · simp

/-! ## Lemmas on the rounding of `double` arithmetic -/

theorem roundHalfEven_cases (y : ℚ) :
    roundHalfEven y = Int.floor y ∨ roundHalfEven y = Int.floor y + 1 := by
  unfold roundHalfEven
  split
  · exact Or.inl rfl
  · split
    · exact Or.inr rfl
    · split
      · exact Or.inl rfl
      · exact Or.inr rfl

theorem roundHalfEven_intCast (n : Int) : roundHalfEven (n : ℚ) = n := by
  unfold roundHalfEven
  simp

/-- A rational within less than one half of an integer rounds to that integer. -/
theorem roundHalfEven_eq_of_near (y : ℚ) (n : Int) (h₁ : (n : ℚ) - 1 / 2 < y)
    (h₂ : y < (n : ℚ) + 1 / 2) : roundHalfEven y = n := by
  have hf := Int.floor_le y
  have hl := Int.lt_floor_add_one y
  have hcase : Int.floor y = n ∨ Int.floor y = n - 1 := by
    have a1 : (n : ℚ) - 1 < Int.floor y + 1 - 0 := by linarith
    have a2 : (Int.floor y : ℚ) < n + 1 := by linarith
    have b1 : n - 1 < Int.floor y + 1 := by exact_mod_cast (by linarith : ((n : ℚ) - 1 < Int.floor y + 1))
    have b2 : Int.floor y < n + 1 := by exact_mod_cast a2
    omega
  unfold roundHalfEven
  rcases hcase with hc | hc
  · have : y - (Int.floor y : ℚ) < 1 / 2 := by rw [hc]; linarith
    rw [if_pos this, hc]
  · have hq : (Int.floor y : ℚ) = (n : ℚ) - 1 := by rw [hc]; push_cast; ring
    have h1 : ¬ (y - (Int.floor y : ℚ) < 1 / 2) := by rw [hq]; linarith
    have h2 : 1 / 2 < y - (Int.floor y : ℚ) := by rw [hq]; linarith
    rw [if_neg h1, if_pos h2, hc]
    ring

theorem roundHalfEven_mono {y₁ y₂ : ℚ} (h : y₁ ≤ y₂) : roundHalfEven y₁ ≤ roundHalfEven y₂ := by
  have hfl : Int.floor y₁ ≤ Int.floor y₂ := Int.floor_mono h
  rcases lt_or_eq_of_le hfl with hlt | heq
  · have h1 : roundHalfEven y₁ ≤ Int.floor y₁ + 1 := by
      rcases roundHalfEven_cases y₁ with c | c <;> omega
    have h2 : Int.floor y₂ ≤ roundHalfEven y₂ := by
      rcases roundHalfEven_cases y₂ with c | c <;> omega
    omega
  · unfold roundHalfEven
    rw [← heq]
    by_cases a1 : y₁ - (Int.floor y₁ : ℚ) < 1 / 2
    · rw [if_pos a1]
      split
      · exact le_refl _
      · split
        · omega
        · split <;> omega
    · rw [if_neg a1]
      have b1 : ¬ (y₂ - (Int.floor y₁ : ℚ) < 1 / 2) := by linarith
      rw [if_neg b1]
      by_cases a2 : 1 / 2 < y₁ - (Int.floor y₁ : ℚ)
      · have b2 : 1 / 2 < y₂ - (Int.floor y₁ : ℚ) := by linarith
        rw [if_pos a2, if_pos b2]
      · rw [if_neg a2]
        split
        · split <;> omega
        · split
          · omega
          · exact le_refl _

theorem two_zpow_pos (z : Int) : (0 : ℚ) < 2 ^ z := zpow_pos (by norm_num) z

theorem binade_bounds {x : ℚ} (hx : 0 < x) :
    (2 : ℚ) ^ Int.log 2 x ≤ x ∧ x < (2 : ℚ) ^ (Int.log 2 x + 1) := by
  have h1 := Int.zpow_log_le_self (b := 2) (r := x) (by norm_num) hx
  have h2 := Int.lt_zpow_succ_log_self (b := 2) (by norm_num) x
  exact ⟨by exact_mod_cast h1, by exact_mod_cast h2⟩

/-- The rounded value of a positive `x` stays within the closed binade of `x`. -/
theorem binary64_pos_bounds {x : ℚ} (hx : 0 < x) :
    (2 : ℚ) ^ Int.log 2 x ≤ binary64_pos x ∧ binary64_pos x ≤ (2 : ℚ) ^ (Int.log 2 x + 1) := by
  obtain ⟨h1, h2⟩ := binade_bounds hx
  have hu := two_zpow_pos (Int.log 2 x - 52)
  have e1 : (2 : ℚ) ^ Int.log 2 x = ((2 ^ 52 : Int) : ℚ) * 2 ^ (Int.log 2 x - 52) := by
    rw [zpow_sub₀ (by norm_num : (2 : ℚ) ≠ 0)]
    push_cast
    field_simp
    norm_num
    ring
  have e2 : (2 : ℚ) ^ (Int.log 2 x + 1) = ((2 ^ 53 : Int) : ℚ) * 2 ^ (Int.log 2 x - 52) := by
    rw [zpow_sub₀ (by norm_num : (2 : ℚ) ≠ 0), zpow_add₀ (by norm_num : (2 : ℚ) ≠ 0)]
    push_cast
    field_simp
    ring
  unfold binary64_pos
  constructor
  · rw [e1]
    apply mul_le_mul_of_nonneg_right _ hu.le
    have : ((2 ^ 52 : Int) : ℚ) ≤ x / 2 ^ (Int.log 2 x - 52) := by
      rw [le_div_iff₀ hu, ← e1]; exact h1
    have := roundHalfEven_mono this
    rw [roundHalfEven_intCast] at this
    exact_mod_cast this
  · rw [e2]
    apply mul_le_mul_of_nonneg_right _ hu.le
    have : x / 2 ^ (Int.log 2 x - 52) ≤ ((2 ^ 53 : Int) : ℚ) := by
      rw [div_le_iff₀ hu, ← e2]; exact h2.le
    have := roundHalfEven_mono this
    rw [roundHalfEven_intCast] at this
    exact_mod_cast this

theorem binary64_pos_pos {x : ℚ} (hx : 0 < x) : 0 < binary64_pos x :=
  lt_of_lt_of_le (two_zpow_pos _) (binary64_pos_bounds hx).1

theorem binary64_pos_mono {x y : ℚ} (hx : 0 < x) (h : x ≤ y) :
    binary64_pos x ≤ binary64_pos y := by
  have hy : 0 < y := lt_of_lt_of_le hx h
  have hlog : Int.log 2 x ≤ Int.log 2 y := Int.log_mono_right hx h
  rcases lt_or_eq_of_le hlog with hlt | heq
  · have h1 := (binary64_pos_bounds hx).2
    have h2 := (binary64_pos_bounds hy).1
    have h3 : (2 : ℚ) ^ (Int.log 2 x + 1) ≤ 2 ^ Int.log 2 y :=
      zpow_le_zpow_right₀ (by norm_num) (by omega)
    linarith
  · unfold binary64_pos
    rw [← heq]
    have hu := two_zpow_pos (Int.log 2 x - 52)
    apply mul_le_mul_of_nonneg_right _ hu.le
    have : x / 2 ^ (Int.log 2 x - 52) ≤ y / 2 ^ (Int.log 2 x - 52) :=
      div_le_div_of_nonneg_right h hu.le
    exact_mod_cast roundHalfEven_mono this

theorem binary64_zero : binary64 0 = 0 := by
  simp [binary64]

theorem binary64_monotone : Monotone binary64 := by
  intro x y h
  unfold binary64
  by_cases hx : 0 < x
  · have hy : 0 < y := lt_of_lt_of_le hx h
    rw [if_pos hx, if_pos hy]
    exact binary64_pos_mono hx h
  · rw [if_neg hx]
    by_cases hx' : x < 0
    · rw [if_pos hx']
      have hnx : 0 < -x := by linarith
      have hpx := binary64_pos_pos hnx
      by_cases hy : 0 < y
      · rw [if_pos hy]
        have := binary64_pos_pos hy
        linarith
      · rw [if_neg hy]
        by_cases hy' : y < 0
        · rw [if_pos hy']
          have hny : 0 < -y := by linarith
          have := binary64_pos_mono hny (by linarith : -y ≤ -x)
          linarith
        · rw [if_neg hy']
          linarith
    · rw [if_neg hx']
      have hx0 : x = 0 := by linarith
      by_cases hy : 0 < y
      · rw [if_pos hy]
        exact (binary64_pos_pos hy).le
      · have : ¬ y < 0 := by linarith
        rw [if_neg hy, if_neg this]

/-- Evaluation of the rounding: a positive `x` in the binade of exponent `e`
whose quotient by `2 ^ (e - 52)` lies within less than one half of the integer
`n` rounds to `n * 2 ^ (e - 52)`. -/
theorem binary64_eq {x : ℚ} (e n : Int) (h₁ : (2 : ℚ) ^ e ≤ x) (h₂ : x < (2 : ℚ) ^ (e + 1))
    (h₃ : (n : ℚ) - 1 / 2 < x / 2 ^ (e - 52)) (h₄ : x / 2 ^ (e - 52) < (n : ℚ) + 1 / 2) :
    binary64 x = (n : ℚ) * 2 ^ (e - 52) := by
  have hx : 0 < x := lt_of_lt_of_le (two_zpow_pos e) h₁
  have hlog : Int.log 2 x = e := by
    have a1 : e ≤ Int.log 2 x := (Int.zpow_le_iff_le_log (b := 2) (by norm_num) hx).mp
      (by exact_mod_cast h₁)
    have a2 : Int.log 2 x < e + 1 := (Int.lt_zpow_iff_log_lt (b := 2) (by norm_num) hx).mp
      (by exact_mod_cast h₂)
    omega
  unfold binary64 binary64_pos
  rw [if_pos hx, hlog, roundHalfEven_eq_of_near _ n h₃ h₄]
theorem av_q2d_binary64 :
    av_q2d binary64 1 60 = 4803839602528529 / 288230376151711744 := by
  unfold av_q2d
  rw [binary64_eq (-6) 4803839602528529 (by norm_num) (by norm_num) (by norm_num) (by norm_num)]
  norm_num

theorem elapsed_sec_binary64_2050ms :
    EncodeLoop_elapsed_sec binary64 2050000000 0 = 2308094809027379 / 1125899906842624 := by
  unfold EncodeLoop_elapsed_sec
  have h1 : binary64 ((2050000000 - 0 : Int) : ℚ) = 2050000000 := by
    rw [binary64_eq 30 8598323200000000 (by norm_num) (by norm_num) (by norm_num) (by norm_num)]
    norm_num
  rw [h1, binary64_eq 1 4616189618054758 (by norm_num) (by norm_num) (by norm_num) (by norm_num)]
  norm_num

theorem elapsed_sec_binary64_150ms :
    EncodeLoop_elapsed_sec binary64 150000000 0 = 5404319552844595 / 36028797018963968 := by
  unfold EncodeLoop_elapsed_sec
  have h1 : binary64 ((150000000 - 0 : Int) : ℚ) = 150000000 := by
    rw [binary64_eq 27 5033164800000000 (by norm_num) (by norm_num) (by norm_num) (by norm_num)]
    norm_num
  rw [h1, binary64_eq (-3) 5404319552844595 (by norm_num) (by norm_num) (by norm_num)
    (by norm_num)]
  norm_num

theorem static_cast_int64_eq (x : ℚ) (n : Int) (h0 : 0 ≤ x) (h₁ : (n : ℚ) ≤ x)
    (h₂ : x < (n : ℚ) + 1) : static_cast_int64 x = n := by
  unfold static_cast_int64
  rw [if_pos h0, Int.floor_eq_iff]
  exact ⟨h₁, h₂⟩

theorem pts_binary64_2050ms :
    EncodeLoop_pts binary64 (EncodeLoop_elapsed_sec binary64 2050000000 0) = 122 := by
  unfold EncodeLoop_pts
  rw [elapsed_sec_binary64_2050ms, av_q2d_binary64,
    binary64_eq 6 8655355533852671 (by norm_num) (by norm_num) (by norm_num) (by norm_num)]
  exact static_cast_int64_eq _ 122 (by norm_num) (by norm_num) (by norm_num)

theorem pts_binary64_150ms :
    EncodeLoop_pts binary64 (EncodeLoop_elapsed_sec binary64 150000000 0) = 9 := by
  unfold EncodeLoop_pts
  rw [elapsed_sec_binary64_150ms, av_q2d_binary64,
    binary64_eq 3 5066549580791808 (by norm_num) (by norm_num) (by norm_num) (by norm_num)]
  exact static_cast_int64_eq _ 9 (by norm_num) (by norm_num) (by norm_num)

/-- C7, counterexample. In `double` arithmetic the timestamp of line 192 is not
the integer part of the elapsed time divided by 1/60 second. After an elapsed
time of 2.05 s the code computes 122 while the integer part of 2.05 / (1/60) is
123; after 0.15 s the code computes 9 while the integer part of the quotient of
the `double` value of the elapsed time by 1/60 is 8. -/
theorem pts_differs_from_formula :
    EncodeLoop_pts binary64 (EncodeLoop_elapsed_sec binary64 2050000000 0) = 122 ∧
    pts_spec (2050000000 / 1000000000) = 123 ∧
    EncodeLoop_pts binary64 (EncodeLoop_elapsed_sec binary64 150000000 0) = 9 ∧
    pts_spec (EncodeLoop_elapsed_sec binary64 150000000 0) = 8 ∧
    ¬ (∀ now : Int, 0 ≤ now →
      EncodeLoop_pts binary64 (EncodeLoop_elapsed_sec binary64 now 0) =
        pts_spec ((now : ℚ) / 1000000000)) ∧
    ¬ (∀ now : Int, 0 ≤ now →
      EncodeLoop_pts binary64 (EncodeLoop_elapsed_sec binary64 now 0) =
        pts_spec (EncodeLoop_elapsed_sec binary64 now 0)) := by
  have s1 : pts_spec (2050000000 / 1000000000) = 123 := by
    unfold pts_spec
    rw [Int.floor_eq_iff]
    norm_num
  have s2 : pts_spec (EncodeLoop_elapsed_sec binary64 150000000 0) = 8 := by
    rw [elapsed_sec_binary64_150ms]
    unfold pts_spec
    rw [Int.floor_eq_iff]
    norm_num
  refine ⟨pts_binary64_2050ms, s1, pts_binary64_150ms, s2, ?_, ?_⟩
  · intro h
    have := h 2050000000 (by norm_num)
    rw [pts_binary64_2050ms] at this
    have e : ((2050000000 : Int) : ℚ) / 1000000000 = 2050000000 / 1000000000 := by norm_num
    rw [e, s1] at this
    exact absurd this (by decide)
  · intro h
    have := h 150000000 (by norm_num)
    rw [pts_binary64_150ms, s2] at this
    exact absurd this (by decide)

theorem binary64_nonneg {x : ℚ} (h : 0 ≤ x) : 0 ≤ binary64 x := by
  have := binary64_monotone h
  rwa [binary64_zero] at this

theorem EncodeLoop_pts_binary64_zero : EncodeLoop_pts binary64 0 = 0 := by
  unfold EncodeLoop_pts
  rw [zero_div, binary64_zero]
  simp [static_cast_int64]

theorem EncodeLoop_pts_binary64_limit :
    EncodeLoop_pts binary64 (binary64 (binary64 ((2 ^ 63 : Int) : ℚ) / 1000000000)) =
      553402322211 := by
  have h1 : binary64 ((2 ^ 63 : Int) : ℚ) = 9223372036854775808 := by
    rw [binary64_eq 63 4503599627370496 (by norm_num) (by norm_num) (by norm_num) (by norm_num)]
    norm_num
  have h2 : binary64 ((9223372036854775808 : ℚ) / 1000000000) = 4835703278458517 / 524288 := by
    rw [binary64_eq 33 4835703278458517 (by norm_num) (by norm_num) (by norm_num) (by norm_num)]
    norm_num
  unfold EncodeLoop_pts
  rw [h1, h2, av_q2d_binary64,
    binary64_eq 39 4533471823554860 (by norm_num) (by norm_num) (by norm_num) (by norm_num)]
  exact static_cast_int64_eq _ 553402322211 (by norm_num) (by norm_num) (by norm_num)

/-- In `double` arithmetic the timestamp of every elapsed time that a signed
64-bit nanosecond clock can report lies between 0 and 553 402 322 211, inside the
signed 64-bit range, so the conversion of line 192 never overflows. -/
theorem EncodeLoop_pts_binary64_fits_int64 (now start_time : Int) (h0 : start_time ≤ now)
    (h : now - start_time ≤ 2 ^ 63) :
    0 ≤ EncodeLoop_pts binary64 (EncodeLoop_elapsed_sec binary64 now start_time) ∧
      EncodeLoop_pts binary64 (EncodeLoop_elapsed_sec binary64 now start_time) ≤ 553402322211 := by
  constructor
  · have h1 := EncodeLoop_pts_mono binary64 binary64_monotone binary64_zero
      (EncodeLoop_elapsed_sec_mono binary64 binary64_monotone start_time h0)
    have h2 : EncodeLoop_elapsed_sec binary64 start_time start_time = 0 := by
      unfold EncodeLoop_elapsed_sec
      simp [binary64_zero]
    rw [h2, EncodeLoop_pts_binary64_zero] at h1
    exact h1
  · have hn : now ≤ start_time + 2 ^ 63 := by omega
    have h1 := EncodeLoop_pts_mono binary64 binary64_monotone binary64_zero
      (EncodeLoop_elapsed_sec_mono binary64 binary64_monotone start_time hn)
    have h2 : EncodeLoop_elapsed_sec binary64 (start_time + 2 ^ 63) start_time =
        binary64 (binary64 ((2 ^ 63 : Int) : ℚ) / 1000000000) := by
      unfold EncodeLoop_elapsed_sec
      rw [add_sub_cancel_left]
    rw [h2, EncodeLoop_pts_binary64_limit] at h1
    exact h1

/-- C7 as amended. In the `double` arithmetic of line 192 the timestamp of an
elapsed time `e ≥ 0` is the integer part of the rounded quotient of `e` by the
`double` nearest to 1/60; it is monotone in the elapsed time, `e₁ ≤ e₂` gives
`pts e₁ ≤ pts e₂`, and monotone in the clock reading `now` of line 190, so
frames encoded one after the other never receive decreasing timestamps. The
monotonicity holds for every rounding that is monotone and exact at zero. -/
theorem pts_monotone (e₁ e₂ : ℚ) (hpos : 0 ≤ e₁) (h : e₁ ≤ e₂) :
    EncodeLoop_pts binary64 e₁ =
      Int.floor (binary64 (e₁ / (4803839602528529 / 288230376151711744))) ∧
    EncodeLoop_pts binary64 e₁ ≤ EncodeLoop_pts binary64 e₂ ∧
    (∀ start_time now₁ now₂ : Int, now₁ ≤ now₂ →
      EncodeLoop_pts binary64 (EncodeLoop_elapsed_sec binary64 now₁ start_time) ≤
        EncodeLoop_pts binary64 (EncodeLoop_elapsed_sec binary64 now₂ start_time)) ∧
    (∀ rnd : ℚ → ℚ, Monotone rnd → rnd 0 = 0 →
      EncodeLoop_pts rnd e₁ ≤ EncodeLoop_pts rnd e₂ ∧
      ∀ start_time now₁ now₂ : Int, now₁ ≤ now₂ →
        EncodeLoop_pts rnd (EncodeLoop_elapsed_sec rnd now₁ start_time) ≤
          EncodeLoop_pts rnd (EncodeLoop_elapsed_sec rnd now₂ start_time)) := by
  refine ⟨?_, EncodeLoop_pts_mono binary64 binary64_monotone binary64_zero h, ?_, ?_⟩
  · unfold EncodeLoop_pts static_cast_int64
    rw [av_q2d_binary64, if_pos]
    exact binary64_nonneg (div_nonneg hpos (by norm_num))
  · intro start_time now₁ now₂ hn
    exact EncodeLoop_pts_mono binary64 binary64_monotone binary64_zero
      (EncodeLoop_elapsed_sec_mono binary64 binary64_monotone start_time hn)
  · intro rnd hm h0
    refine ⟨EncodeLoop_pts_mono rnd hm h0 h, ?_⟩
    intro start_time now₁ now₂ hn
    exact EncodeLoop_pts_mono rnd hm h0 (EncodeLoop_elapsed_sec_mono rnd hm start_time hn)

theorem pts_monotone_witness :
    (0 : ℚ) ≤ 1 / 2 ∧ (1 / 2 : ℚ) ≤ 2 ∧
      EncodeLoop_pts binary64 (1 / 2) ≤ EncodeLoop_pts binary64 2 :=
  ⟨by norm_num, by norm_num, (pts_monotone (1 / 2) 2 (by norm_num) (by norm_num)).2.1⟩

/-! ## The consumer after the flag is cleared -/

theorem inFlight_notify_one (pc : EncodePC) : inFlight (notify_one pc) = inFlight pc := by
  cases pc <;> rfl

/-- With the flag cleared, an encode thread at its loop test, at the predicate of
its wait, or holding a popped frame, running alone, hands the frame it holds and
then the queued frames to the encoder and leaves its loop with the queue empty. -/
theorem exec_encode_closed_any (r : Recorder) (hc : r.is_capturing = false)
    (h : r.encode_pc = .loopHead ∨ r.encode_pc = .wait ∨ ∃ g, r.encode_pc = .process g)
    (k : Nat) (hk : 3 * r.frame_queue.length + 3 ≤ k) :
    exec r (List.replicate k .encode) =
      { r with frame_queue := []
               encoded := r.encoded ++ inFlight r.encode_pc ++ encodedOf r.frame_queue
               encode_pc := .exited } := by
  rcases h with h | h | ⟨g, h⟩
  · rw [exec_encode_closed r hc (Or.inl h) k hk, h]
    simp [inFlight]
  · rw [exec_encode_closed r hc (Or.inr h) k hk, h]
    simp [inFlight]
  · obtain ⟨j, rfl⟩ : ∃ j, k = 1 + j := ⟨k - 1, by omega⟩
    rw [List.replicate_add, exec_append]
    have h1 : exec r (List.replicate 1 Event.encode) =
        { r with encoded := r.encoded ++ inFlight (.process g), encode_pc := .loopHead } := by
      cases r
      simp only at h hc
      subst h hc
      cases hg : g.isEmpty <;>
        simp [exec, step, stepEncode, List.replicate, inFlight, hg]
    rw [h1, exec_encode_closed_loopHead
      { r with encoded := r.encoded ++ inFlight (.process g), encode_pc := .loopHead }
      hc rfl j (by simp only; omega), h]

/-- A suspended encode thread stays suspended, and the queue and the encoder see
nothing more, once the capture thread has left: no step of any thread notifies. -/
theorem step_blocked (e : Event) (r r' : Recorder) (hb : r.encode_pc = .blocked)
    (hx : r.capture_pc = .exited) (hs : step e r = some r') :
    r'.encode_pc = .blocked ∧ r'.capture_pc = .exited ∧ r'.frame_queue = r.frame_queue ∧
      r'.encoded = r.encoded := by
  cases e with
  | capture now grab => simp [step, stepCapture, hx] at hs
  | encode => simp [step, stepEncode, hb] at hs
  | stop =>
    simp only [step, stepStop] at hs
    split at hs <;> (try split at hs) <;> (try split at hs) <;>
      first
        | (simp at hs; done)
        | (simp at hs; subst hs; exact ⟨hb, hx, rfl, rfl⟩)

theorem exec_blocked (es : List Event) (r : Recorder) (hb : r.encode_pc = .blocked)
    (hx : r.capture_pc = .exited) :
    (exec r es).encode_pc = .blocked ∧ (exec r es).frame_queue = r.frame_queue ∧
      (exec r es).encoded = r.encoded := by
  induction es generalizing r with
  | nil => exact ⟨hb, rfl, rfl⟩
  | cons e es ih =>
    rw [exec]
    cases hs : step e r with
    | none => exact ih r hb hx
    | some r' =>
      obtain ⟨k1, k2, k3, k4⟩ := step_blocked e r r' hb hx hs
      obtain ⟨i1, i2, i3⟩ := ih r' k1 k2
      exact ⟨i1, i2.trans k3, i3.trans k4⟩

/-- C4, close-drain. An encode thread that is running when the flag is cleared
(at its loop test, at the predicate of its wait, or holding a popped frame) hands
the queued frames in order to the encoder and leaves its loop with the queue
empty, never earlier. An encode thread that is suspended in its wait when the
flag is cleared does not: in the run of `main` under `deadlockSchedule` the flag
is cleared, the capture thread has left and the queue is empty, yet under every
further schedule the encode thread stays suspended and never leaves its loop;
this holds from every state with the encode thread suspended and the capture
thread gone, because `Stop` never notifies. -/
theorem closed_consumer_keeps_waiting :
    (exec (mainSession 2) deadlockSchedule).is_capturing = false ∧
    (exec (mainSession 2) deadlockSchedule).capture_pc = .exited ∧
    (exec (mainSession 2) deadlockSchedule).frame_queue = [] ∧
    (exec (mainSession 2) deadlockSchedule).encode_pc = .blocked ∧
    (∀ es : List Event,
      (exec (exec (mainSession 2) deadlockSchedule) es).encode_pc = .blocked ∧
      (exec (exec (mainSession 2) deadlockSchedule) es).encode_pc ≠ .exited) ∧
    (∀ r : Recorder, r.encode_pc = .blocked → r.capture_pc = .exited →
      ∀ es : List Event, (exec r es).encode_pc = .blocked ∧
        (exec r es).frame_queue = r.frame_queue ∧ (exec r es).encoded = r.encoded) ∧
    (∀ r : Recorder, r.is_capturing = false →
      (r.encode_pc = .loopHead ∨ r.encode_pc = .wait ∨ ∃ g, r.encode_pc = .process g) →
      (∀ k : Nat, 3 * r.frame_queue.length + 3 ≤ k →
        exec r (List.replicate k .encode) =
          { r with frame_queue := []
                   encoded := r.encoded ++ inFlight r.encode_pc ++ encodedOf r.frame_queue
                   encode_pc := .exited }) ∧
      (∀ j : Nat, (exec r (List.replicate j .encode)).encode_pc = .exited →
        (exec r (List.replicate j .encode)).frame_queue = [])) := by
  have hx : (exec (mainSession 2) deadlockSchedule).capture_pc = .exited := by decide
  have hb : (exec (mainSession 2) deadlockSchedule).encode_pc = .blocked := by decide
  refine ⟨by decide, hx, by decide, hb, ?_, ?_, ?_⟩
  · intro es
    have := (exec_blocked es _ hb hx).1
    exact ⟨this, by rw [this]; decide⟩
  · intro r hb' hx' es
    exact exec_blocked es r hb' hx'
  · intro r hc h
    refine ⟨fun k hk => exec_encode_closed_any r hc h k hk, ?_⟩
    intro j
    apply exec_encode_exit_drained j r hc
    intro hex
    rcases h with h | h | ⟨g, h⟩ <;> rw [h] at hex <;> cases hex

/-- C10 as amended. The push of `CaptureLoop` does not test the flag. With the
flag cleared, a capture thread that already holds a captured frame appends it
exactly as with the flag set (the front is evicted first when 60 or more frames
are queued, the frame becomes the last element) and then notifies; after that an
encode thread that is anywhere in its loop (at its loop test, at the predicate of
its wait, suspended in the wait, or holding a popped frame) hands the frame it
holds, the queued frames and the new frame to the encoder and leaves with the
queue empty. The cleared flag stops the capture thread only at its loop test,
where it leaves without touching the queue, and a capture thread that has left
takes no further step. -/
theorem push_ignores_flag (r : Recorder) (hc : r.is_capturing = false) (now : Int)
    (grab : Option (Nat → Nat)) :
    (∀ frame : Frame, r.capture_pc = .push frame →
      ∃ r', step (.capture now grab) r = some r' ∧
        r'.frame_queue = CaptureLoop_push r.frame_queue frame ∧
        r'.frame_queue.getLast? = some frame ∧ r'.is_capturing = false) ∧
    (∀ frame : Frame, r.capture_pc = .push frame →
      (r.encode_pc = .loopHead ∨ r.encode_pc = .wait ∨ r.encode_pc = .blocked ∨
        ∃ g, r.encode_pc = .process g) →
      ∀ k : Nat, 3 * (r.frame_queue.length + 1) + 3 ≤ k →
        (exec r (.capture now grab :: .capture now grab :: List.replicate k .encode)).encoded =
            r.encoded ++ inFlight r.encode_pc ++
              encodedOf (CaptureLoop_push r.frame_queue frame) ∧
          (exec r (.capture now grab :: .capture now grab ::
            List.replicate k .encode)).frame_queue = [] ∧
          (exec r (.capture now grab :: .capture now grab ::
            List.replicate k .encode)).encode_pc = .exited) ∧
    (r.capture_pc = .loopHead →
      ∃ r', step (.capture now grab) r = some r' ∧ r'.capture_pc = .exited ∧
        r'.frame_queue = r.frame_queue) ∧
    (r.capture_pc = .exited → step (.capture now grab) r = none) := by
  refine ⟨?_, ?_, ?_, ?_⟩
  · intro frame hpc
    refine ⟨{ r with frame_queue := CaptureLoop_push r.frame_queue frame
                     pushed := r.pushed ++ [frame]
                     capture_pc := .notify }, by simp only [step, stepCapture, hpc], rfl, ?_, hc⟩
    exact CaptureLoop_push_getLast _ _
  · intro frame hpc henc k hk
    have hstep : exec r (.capture now grab :: .capture now grab :: List.replicate k .encode) =
        exec { r with frame_queue := CaptureLoop_push r.frame_queue frame
                      pushed := r.pushed ++ [frame]
                      encode_pc := notify_one r.encode_pc
                      capture_pc := .sleep } (List.replicate k .encode) := by
      rw [exec]
      have h1 : step (.capture now grab) r = some
          { r with frame_queue := CaptureLoop_push r.frame_queue frame
                   pushed := r.pushed ++ [frame]
                   capture_pc := .notify } := by
        simp only [step, stepCapture, hpc]
      rw [h1, Option.getD_some, exec]
      simp only [step, stepCapture, Option.getD_some]
    have hlen := CaptureLoop_push_length_le_succ r.frame_queue frame
    have henc' : notify_one r.encode_pc = .loopHead ∨ notify_one r.encode_pc = .wait ∨
        ∃ g, notify_one r.encode_pc = .process g := by
      rcases henc with h | h | h | ⟨g, h⟩ <;> rw [h]
      · exact Or.inl rfl
      · exact Or.inr (Or.inl rfl)
      · exact Or.inr (Or.inl rfl)
      · exact Or.inr (Or.inr ⟨g, rfl⟩)
    have := exec_encode_closed_any
      { r with frame_queue := CaptureLoop_push r.frame_queue frame
               pushed := r.pushed ++ [frame]
               encode_pc := notify_one r.encode_pc
               capture_pc := .sleep } hc henc' k (by simp only; omega)
    rw [hstep, this]
    simp [inFlight_notify_one]
  · intro hpc
    exact ⟨{ r with capture_pc := .exited }, by simp [step, stepCapture, hpc, hc], rfl, rfl⟩
  · intro hpc
    simp only [step, stepCapture, hpc]

theorem push_ignores_flag_witness :
    (exec { Recorder.new with capture_pc := .push [1], encode_pc := .blocked }
        (.capture 0 none :: .capture 0 none :: List.replicate 6 .encode)).encoded =
      [] ++ inFlight .blocked ++ encodedOf (CaptureLoop_push [] [1]) ∧
    (exec { Recorder.new with capture_pc := .push [1], encode_pc := .blocked }
        (.capture 0 none :: .capture 0 none :: List.replicate 6 .encode)).frame_queue = [] ∧
    (exec { Recorder.new with capture_pc := .push [1], encode_pc := .blocked }
        (.capture 0 none :: .capture 0 none :: List.replicate 6 .encode)).encode_pc = .exited :=
  (push_ignores_flag { Recorder.new with capture_pc := .push [1], encode_pc := .blocked }
    rfl 0 none).2.1 [1] rfl (Or.inr (Or.inr (Or.inl rfl))) 6 (by decide)

end ScreenRecorder
